import Mathlib

/-!
Verification of the diarization runner in `src/python/diarize.py`.

The script's own logic is glue: read `HUGGINGFACE_TOKEN` from the
environment, warn when it is falsy, construct the external pyannote
pipeline, run it on the audio file, convert the yielded
(interval, track, label) triples into segment records, and serialize the
list with `json.dump(segments, f, indent=2)`.

The external pipeline, the environment and the file system are inputs of
the model; the script's observable behaviour (segment construction,
serialized bytes, stdout lines, exit status, file-system effect, event
order) is computed by executable Lean functions translated from the
source.  Python floats yielded by the pipeline are modelled as rational
numbers; the well-formedness predicate used by the serialization
theorems restricts them to values with a finite decimal expansion, which
covers every value a Python float can take.
-/

/-! ### Characters and digit strings -/

/-- JSON whitespace characters (RFC 8259: space, tab, newline, carriage return). -/
def wsChar (c : Char) : Bool :=
  c = ' ' || c = '\t' || c = '\n' || c = '\r'

/-- The decimal digit character for `d` (meaningful for `d < 10`). -/
def digitToChar (d : Nat) : Char := Char.ofNat (48 + d)

/-- Numeric value of a big-endian digit string, by Horner's rule. -/
def valOfDigits (l : List Char) : Nat :=
  l.foldl (fun a c => a * 10 + (c.toNat - 48)) 0

/-- Little-endian digit list of `n`, by repeated division (fuel-based so
that it is structurally recursive). -/
def toDigitsRev : Nat → Nat → List Nat
  | 0, _ => []
  | f + 1, n => if n = 0 then [] else n % 10 :: toDigitsRev f (n / 10)

/-- Big-endian decimal digit string of a natural number. -/
def natToStr (n : Nat) : List Char :=
  if n = 0 then [('0')] else ((toDigitsRev n n).map digitToChar).reverse

/-- Digit string of `m` left-padded with zeros to length `k`. -/
def natToStrPad (k m : Nat) : List Char :=
  List.replicate (k - (natToStr m).length) ('0') ++ natToStr m

/-- Splits off the leading run of decimal digit characters. -/
def readDigits : List Char → List Char × List Char
  | [] => ([], [])
  | c :: r =>
    if c.isDigit then
      let p := readDigits r
      (c :: p.1, p.2)
    else ([], c :: r)

theorem toDigitsRev_eq {f n : Nat} (h : n ≤ f) : toDigitsRev f n = Nat.digits 10 n := by
  induction f generalizing n with
  | zero =>
    have : n = 0 := by omega
    subst this
    simp [toDigitsRev]
  | succ f ih =>
    by_cases h0 : n = 0
    · subst h0
      simp [toDigitsRev]
    · rw [toDigitsRev, if_neg h0,
        Nat.digits_def' (by norm_num : (1 : Nat) < 10) (Nat.pos_of_ne_zero h0)]
      congr 1
      refine ih ?_
      have := Nat.div_lt_self (Nat.pos_of_ne_zero h0) (by norm_num : (1 : Nat) < 10)
      omega

theorem natToStr_eq (n : Nat) :
    natToStr n = if n = 0 then [('0')] else ((Nat.digits 10 n).map digitToChar).reverse := by
  unfold natToStr
  rw [toDigitsRev_eq le_rfl]

theorem digitToChar_isDigit {d : Nat} (h : d < 10) : (digitToChar d).isDigit = true := by
  interval_cases d <;> decide

theorem digitToChar_toNat {d : Nat} (h : d < 10) : (digitToChar d).toNat = 48 + d := by
  interval_cases d <;> decide

theorem natToStr_digits {n : Nat} : ∀ c ∈ natToStr n, c.isDigit = true := by
  rw [natToStr_eq]
  split
  · intro c hc
    simp only [List.mem_singleton] at hc
    subst hc; decide
  · intro c hc
    simp only [List.mem_reverse, List.mem_map] at hc
    obtain ⟨d, hd, rfl⟩ := hc
    exact digitToChar_isDigit (Nat.digits_lt_base (by norm_num) hd)

theorem natToStrPad_digits {k m : Nat} : ∀ c ∈ natToStrPad k m, c.isDigit = true := by
  intro c hc
  unfold natToStrPad at hc
  rcases List.mem_append.mp hc with h | h
  · rw [List.eq_of_mem_replicate h]; decide
  · exact natToStr_digits c h

theorem readDigits_eq {a b : List Char} (ha : ∀ c ∈ a, c.isDigit = true)
    (hb : ∀ c, b.head? = some c → c.isDigit = false) :
    readDigits (a ++ b) = (a, b) := by
  induction a with
  | nil =>
    cases b with
    | nil => rfl
    | cons c r =>
      have := hb c rfl
      simp [readDigits, this]
  | cons c a ih =>
    have hc : c.isDigit = true := ha c (List.mem_cons_self ..)
    have ih' := ih (fun x hx => ha x (List.mem_cons_of_mem _ hx))
    simp [readDigits, hc, ih']

theorem valOfDigits_aux (ds : List Nat) (hds : ∀ d ∈ ds, d < 10) (a : Nat) :
    ((ds.map digitToChar).reverse).foldl (fun a c => a * 10 + (c.toNat - 48)) a =
      a * 10 ^ ds.length + Nat.ofDigits 10 ds := by
  induction ds generalizing a with
  | nil => simp
  | cons d ds ih =>
    have hd : d < 10 := hds d (List.mem_cons_self ..)
    have hds' : ∀ x ∈ ds, x < 10 := fun x hx => hds x (List.mem_cons_of_mem _ hx)
    simp only [List.map_cons, List.reverse_cons, List.foldl_append, List.foldl_cons,
      List.foldl_nil, ih hds']
    rw [digitToChar_toNat hd]
    simp only [Nat.add_sub_cancel_left, Nat.ofDigits_cons, List.length_cons]
    ring

theorem valOfDigits_natToStr (n : Nat) : valOfDigits (natToStr n) = n := by
  rw [natToStr_eq]
  unfold valOfDigits
  split
  · simp_all
  · rw [valOfDigits_aux _ (fun d hd => Nat.digits_lt_base (by norm_num) hd) 0]
    simp [Nat.ofDigits_digits]

theorem valOfDigits_replicate_zero (j : Nat) (s : List Char) :
    valOfDigits (List.replicate j ('0') ++ s) = valOfDigits s := by
  induction j with
  | zero => rfl
  | succ j ih =>
    simp only [List.replicate_succ, List.cons_append]
    unfold valOfDigits at ih ⊢
    simpa using ih

theorem valOfDigits_natToStrPad (k m : Nat) : valOfDigits (natToStrPad k m) = m := by
  unfold natToStrPad
  rw [valOfDigits_replicate_zero, valOfDigits_natToStr]

theorem natToStr_length_le {m k : Nat} (hk : 1 ≤ k) (hm : m < 10 ^ k) :
    (natToStr m).length ≤ k := by
  rw [natToStr_eq]
  split
  · simpa using hk
  · simp only [List.length_reverse, List.length_map]
    rename_i hm0
    rw [Nat.digits_len 10 m (by norm_num) hm0]
    have := Nat.log_lt_of_lt_pow hm0 hm
    omega

theorem natToStrPad_length {k m : Nat} (hk : 1 ≤ k) (hm : m < 10 ^ k) :
    (natToStrPad k m).length = k := by
  unfold natToStrPad
  have h := natToStr_length_le hk hm
  simp only [List.length_append, List.length_replicate]
  omega

/-! ### Data model

`diarize_audio` iterates `diarization.itertracks(yield_label=True)`,
which yields `(turn, track, speaker)` triples, and builds a dict
`{"start": turn.start, "end": turn.end, "speaker": f"SPEAKER_{speaker}"}`
for each.  `turn.start` / `turn.end` are floats, modelled as rationals;
`end` is a Lean keyword, so the field is called `stop` here. -/

/-- A pyannote time interval (`turn` in the source); fields `start` and `end`. -/
structure Turn where
  start : Rat
  stop : Rat
  deriving DecidableEq

/-- One `(turn, track, speaker)` triple yielded by `itertracks(yield_label=True)`. -/
structure Triple where
  turn : Turn
  track : String
  speaker : String
  deriving DecidableEq

/-- One output segment dict: keys `start`, `end` (called `stop` here), `speaker`. -/
structure Segment where
  start : Rat
  stop : Rat
  speaker : String
  deriving DecidableEq

/-- The segment-construction loop of `diarize_audio`: for each yielded triple,
append `{"start": turn.start, "end": turn.end, "speaker": f"SPEAKER_{speaker}"}`. -/
def toSegments (ts : List Triple) : List Segment :=
  ts.map fun t =>
    { start := t.turn.start, stop := t.turn.stop, speaker := ("SPEAKER_") ++ t.speaker }

theorem toSegments_length (ts : List Triple) : (toSegments ts).length = ts.length := by
  simp [toSegments]

/-! ### Number rendering

`json.dump` serializes a float via its `repr`, the shortest decimal
string denoting the same value; every finite Python float is a rational
whose denominator divides a power of ten, and the model renders such a
rational as an exact decimal string `⟨int⟩.⟨frac⟩` (sign in front). -/

/-- Least positive `k < 64` with `q.den ∣ 10 ^ k`, when one exists. -/
def pow10Exp (d : Nat) : Option Nat :=
  (List.range 64).find? fun k => decide (0 < k) && decide (10 ^ k % d = 0)

theorem pow10Exp_spec {d k : Nat} (h : pow10Exp d = some k) :
    0 < k ∧ 10 ^ k % d = 0 := by
  have := List.find?_some h
  simp only [Bool.and_eq_true, decide_eq_true_eq] at this
  exact this

/-- Whether the model can render `q` as an exact decimal string. -/
def renderableB (q : Rat) : Bool := (pow10Exp q.den).isSome

/-- Decimal rendering of a rational with decimal denominator; models the
`repr` of the corresponding Python float value. -/
def numData (q : Rat) : List Char :=
  match pow10Exp q.den with
  | none => ("0.0").data
  | some k =>
    let N := q.num.natAbs * (10 ^ k / q.den)
    (if q.num < 0 then [('-')] else []) ++
      natToStr (N / 10 ^ k) ++ [('.')] ++ natToStrPad k (N % 10 ^ k)

/-! ### The serialized document

`json.dump(segments, f, indent=2)` writes `[]` for the empty list and
otherwise an indented array whose elements are the segment objects with
keys `start`, `end`, `speaker` in insertion order.  The literal pieces
below are exactly the bytes `json.dump` emits around the two numbers and
the speaker string of each element. -/

/-- Printable ASCII characters needing no JSON string escaping. -/
def plainChar (c : Char) : Bool :=
  32 ≤ c.toNat && c.toNat < 127 && !(c == '"') && !(c == '\\')

/-- Bytes from the element opening up to the `start` value. -/
def litStart : List Char := ("\x7b\n    \"start\": ").data

/-- Bytes between the `start` value and the `end` value. -/
def litEnd2 : List Char := (",\n    \"end\": ").data

/-- Bytes between the `end` value and the speaker string's opening quote. -/
def litSpk : List Char := (",\n    \"speaker\": \"").data

/-- Bytes after the speaker string's closing quote, closing the element. -/
def litObjEnd : List Char := ("\n  \x7d").data

/-- Bytes between two consecutive elements. -/
def litSep : List Char := (",\n  ").data

/-- One serialized element. -/
def chunkData (s : Segment) : List Char :=
  litStart ++ numData s.start ++ litEnd2 ++ numData s.stop ++
    litSpk ++ s.speaker.data ++ ('"') :: litObjEnd

/-- The serialized elements joined by the separator. -/
def bodyData : List Segment → List Char
  | [] => []
  | [s] => chunkData s
  | s :: rest => chunkData s ++ litSep ++ bodyData rest

/-- The full document: models `json.dump(segments, f, indent=2)`. -/
def dumpData : List Segment → List Char
  | [] => ("[]").data
  | l => ("[\n  ").data ++ bodyData l ++ ("\n]").data

/-- The bytes `diarize_audio` writes to the output file on success. -/
def dumpSegments (l : List Segment) : String := String.mk (dumpData l)

/-- A segment the model can serialize faithfully: both floats have a
finite decimal expansion (true of every Python float) and the speaker
label consists of printable ASCII characters needing no escaping. -/
def wfSeg (s : Segment) : Bool :=
  renderableB s.start && renderableB s.stop && s.speaker.data.all plainChar

/-- All segments of the list are well formed. -/
def wfSegs (l : List Segment) : Bool := l.all wfSeg

/-- The same well-formedness condition on a yielded triple. -/
def wfTriple (t : Triple) : Bool :=
  renderableB t.turn.start && renderableB t.turn.stop && t.speaker.data.all plainChar

/-- All yielded triples are well formed. -/
def wfTriples (ts : List Triple) : Bool := ts.all wfTriple

theorem plainChar_spec {c : Char} (h : plainChar c = true) :
    c ≠ '"' ∧ c ≠ '\\' := by
  simp only [plainChar, Bool.and_eq_true, Bool.not_eq_true', beq_eq_false_iff_ne] at h
  exact ⟨h.1.2, h.2⟩

theorem wfSegs_toSegments {ts : List Triple} (h : wfTriples ts = true) :
    wfSegs (toSegments ts) = true := by
  simp only [wfTriples, List.all_eq_true] at h
  simp only [wfSegs, toSegments, List.all_eq_true, List.mem_map]
  rintro s ⟨t, ht, rfl⟩
  have := h t ht
  simp only [wfTriple, Bool.and_eq_true] at this
  simp only [wfSeg, Bool.and_eq_true]
  refine ⟨⟨this.1.1, this.1.2⟩, ?_⟩
  simp only [List.all_eq_true] at this ⊢
  intro c hc
  have hdata : (("SPEAKER_") ++ t.speaker).data = ("SPEAKER_").data ++ t.speaker.data := by
    rfl
  rw [hdata] at hc
  rcases List.mem_append.mp hc with h8 | h8
  · fin_cases h8 <;> decide
  · exact this.2 c h8

/-! ### Reading the document back

`json.load` on a file produced by this script: the reader below accepts
exactly the documents `dumpSegments` produces — a top-level array whose
elements are objects with exactly the keys `start`, `end` and `speaker`
in that order — and recovers the segment list.  This models
deserializing the output file and converting the parsed objects back
into segments. -/

/-- Consumes an exact literal from the front of the input. -/
def expectL : List Char → List Char → Option (List Char)
  | [], l => some l
  | _ :: _, [] => none
  | t :: ts, c :: cs => if c = t then expectL ts cs else none

/-- JSON short-escape decoding for a backslash-escaped character. -/
def unescChar (c : Char) : Char :=
  if c = 'n' then '\n' else if c = 't' then '\t' else if c = 'r' then '\r'
  else if c = 'b' then Char.ofNat 8 else if c = 'f' then Char.ofNat 12 else c

/-- Reads a JSON string body up to and including the closing quote. -/
def readLabel : List Char → Option (List Char × List Char)
  | [] => none
  | c :: r =>
    if c = '"' then some ([], r)
    else if c = '\\' then
      match r with
      | [] => none
      | e :: r2 =>
        match readLabel r2 with
        | none => none
        | some (a, rest) => some (unescChar e :: a, rest)
    else
      match readLabel r with
      | none => none
      | some (a, rest) => some (c :: a, rest)

/-- Reads `digits.digits` after the optional sign and computes the value. -/
def parseNumRCore (neg : Bool) (l1 : List Char) : Option (Rat × List Char) :=
  match readDigits l1 with
  | ([], _) => none
  | (d1, r1) =>
    match r1 with
    | [] => none
    | c2 :: r2 =>
      if c2 = '.' then
        match readDigits r2 with
        | ([], _) => none
        | (d2, r3) =>
          let v : Rat :=
            ((valOfDigits d1 : Rat) * (10 : Rat) ^ d2.length +
              (valOfDigits d2 : Rat)) / (10 : Rat) ^ d2.length
          some (if neg then -v else v, r3)
      else none

/-- Reads a JSON number of the shape `-?digits.digits` and its value. -/
def parseNumR (l : List Char) : Option (Rat × List Char) :=
  match l with
  | [] => none
  | c :: r => parseNumRCore (c == '-') (if c == '-' then r else c :: r)

/-- Reads one serialized element and the segment it denotes. -/
def parseSeg (l : List Char) : Option (Segment × List Char) :=
  match expectL litStart l with
  | none => none
  | some l1 =>
    match parseNumR l1 with
    | none => none
    | some (st, l2) =>
      match expectL litEnd2 l2 with
      | none => none
      | some l3 =>
        match parseNumR l3 with
        | none => none
        | some (en, l4) =>
          match expectL litSpk l4 with
          | none => none
          | some l5 =>
            match readLabel l5 with
            | none => none
            | some (sp, l6) =>
              match expectL litObjEnd l6 with
              | none => none
              | some l7 => some ({ start := st, stop := en, speaker := String.mk sp }, l7)

/-- Reads the remaining elements and the closing bracket. -/
def loadLoop : Nat → List Char → Option (List Segment)
  | 0, _ => none
  | f + 1, l =>
    match parseSeg l with
    | none => none
    | some (s, r) =>
      match expectL litSep r with
      | some r2 =>
        match loadLoop f r2 with
        | none => none
        | some ss => some (s :: ss)
      | none =>
        match expectL (("\n]").data) r with
        | some r2 => if r2 = [] then some [s] else none
        | none => none

/-- Deserializes an output document back into its segment list. -/
def loadSegments (s : String) : Option (List Segment) :=
  match s.data with
  | '[' :: ']' :: rest => if rest = [] then some [] else none
  | '[' :: '\n' :: ' ' :: ' ' :: r => loadLoop (r.length + 1) r
  | _ => none

theorem expectL_append (t r : List Char) : expectL t (t ++ r) = some r := by
  induction t with
  | nil => rfl
  | cons c ts ih => simp [expectL, ih]

theorem expectL_sound {t l r : List Char} (h : expectL t l = some r) : l = t ++ r := by
  induction t generalizing l with
  | nil =>
    simp only [expectL, Option.some.injEq] at h
    simpa using h
  | cons c ts ih =>
    cases l with
    | nil => exact absurd h (by simp [expectL])
    | cons x xs =>
      simp only [expectL] at h
      split at h
      · rename_i hx
        subst hx
        simpa using ih h
      · exact absurd h (by simp)

theorem natToStr_ne_nil (n : Nat) : natToStr n ≠ [] := by
  rw [natToStr_eq]
  split
  · simp
  · rename_i h
    simp only [ne_eq, List.reverse_eq_nil_iff, List.map_eq_nil_iff]
    exact Nat.digits_ne_nil_iff_ne_zero.mpr h

theorem digit_not_dash {c : Char} (h : c.isDigit = true) : (c == '-') = false := by
  rcases hb : c == '-' with _ | _
  · rfl
  · rw [beq_iff_eq] at hb
    subst hb
    exact absurd h (by decide)

theorem readLabel_append {a rest : List Char} (ha : a.all plainChar = true) :
    readLabel (a ++ ('"') :: rest) = some (a, rest) := by
  induction a with
  | nil =>
    unfold readLabel
    simp
  | cons c a ih =>
    have hc : plainChar c = true := by
      simp only [List.all_eq_true] at ha
      exact ha c (List.mem_cons_self ..)
    obtain ⟨h1, h2⟩ := plainChar_spec hc
    have ha' : a.all plainChar = true := by
      simp only [List.all_eq_true] at ha ⊢
      exact fun x hx => ha x (List.mem_cons_of_mem _ hx)
    rw [List.cons_append]
    unfold readLabel
    simp [h1, h2, ih ha']

theorem parseNumRCore_eval {k : Nat} (ip fr : Nat) (hk : 1 ≤ k) (hfr : fr < 10 ^ k)
    (neg : Bool) {rest : List Char}
    (hrest : ∀ c, rest.head? = some c → c.isDigit = false) :
    parseNumRCore neg (natToStr ip ++ ('.') :: (natToStrPad k fr ++ rest)) =
      some ((if neg then
          -(((ip : Rat) * (10 : Rat) ^ k + (fr : Rat)) / (10 : Rat) ^ k)
        else ((ip : Rat) * (10 : Rat) ^ k + (fr : Rat)) / (10 : Rat) ^ k), rest) := by
  obtain ⟨c, ds, hds⟩ : ∃ c ds, natToStr ip = c :: ds := by
    cases h : natToStr ip with
    | nil => exact absurd h (natToStr_ne_nil ip)
    | cons c ds => exact ⟨c, ds, rfl⟩
  obtain ⟨p0, pds, hpds⟩ : ∃ p0 pds, natToStrPad k fr = p0 :: pds := by
    cases h : natToStrPad k fr with
    | nil =>
      have := natToStrPad_length hk hfr
      rw [h] at this
      simp at this
      omega
    | cons p0 pds => exact ⟨p0, pds, rfl⟩
  have hrd1 : readDigits (natToStr ip ++ ('.') :: (natToStrPad k fr ++ rest)) =
      (natToStr ip, ('.') :: (natToStrPad k fr ++ rest)) := by
    refine readDigits_eq natToStr_digits ?_
    intro x hx
    simp only [List.head?_cons, Option.some.injEq] at hx
    subst hx
    decide
  have hrd2 : readDigits (natToStrPad k fr ++ rest) = (natToStrPad k fr, rest) :=
    readDigits_eq natToStrPad_digits hrest
  have hpadlen : (natToStrPad k fr).length = k := natToStrPad_length hk hfr
  unfold parseNumRCore
  rw [hrd1, hds]
  simp only [if_true]
  rw [hrd2, hpds]
  simp only [← hpds, ← hds, hpadlen, valOfDigits_natToStr, valOfDigits_natToStrPad]

theorem parseNumR_numData {q : Rat} (hq : renderableB q = true) {rest : List Char}
    (hrest : ∀ c, rest.head? = some c → c.isDigit = false) :
    parseNumR (numData q ++ rest) = some (q, rest) := by
  obtain ⟨k, hk⟩ := Option.isSome_iff_exists.mp hq
  obtain ⟨hkpos, hmod⟩ := pow10Exp_spec hk
  have hdvd : q.den ∣ 10 ^ k := Nat.dvd_of_mod_eq_zero hmod
  have hpow : (0 : Nat) < 10 ^ k := Nat.pos_pow_of_pos k (by norm_num)
  set N : Nat := q.num.natAbs * (10 ^ k / q.den) with hN
  have hfr : N % 10 ^ k < 10 ^ k := Nat.mod_lt _ hpow
  have hdump : numData q =
      (if q.num < 0 then [('-')] else []) ++
        natToStr (N / 10 ^ k) ++ [('.')] ++ natToStrPad k (N % 10 ^ k) := by
    rw [numData, hk]
  -- the parsed value equals |q|
  have habs : (((N / 10 ^ k : Nat) : Rat) * (10 : Rat) ^ k + ((N % 10 ^ k : Nat) : Rat)) /
      (10 : Rat) ^ k = ((q.num.natAbs : Rat)) / ((q.den : Rat)) := by
    have hsum : ((N / 10 ^ k : Nat) : Rat) * (10 : Rat) ^ k + ((N % 10 ^ k : Nat) : Rat)
        = (N : Rat) := by
      calc ((N / 10 ^ k : Nat) : Rat) * (10 : Rat) ^ k + ((N % 10 ^ k : Nat) : Rat)
          = ((10 ^ k * (N / 10 ^ k) + N % 10 ^ k : Nat) : Rat) := by push_cast; ring
        _ = (N : Rat) := by rw [Nat.div_add_mod]
    rw [hsum]
    have hcne : ((10 ^ k / q.den : Nat) : Rat) ≠ 0 := by
      have hne : 10 ^ k / q.den ≠ 0 := by
        intro hz
        have := Nat.mul_div_cancel' hdvd
        rw [hz] at this
        simp at this
        omega
      exact_mod_cast hne
    have hdc : ((q.den : Rat)) * ((10 ^ k / q.den : Nat) : Rat) = (10 : Rat) ^ k := by
      have hmdc := Nat.mul_div_cancel' hdvd
      calc ((q.den : Rat)) * ((10 ^ k / q.den : Nat) : Rat)
        = ((q.den * (10 ^ k / q.den) : Nat) : Rat) := by push_cast; ring
      _ = ((10 ^ k : Nat) : Rat) := by rw [hmdc]
      _ = (10 : Rat) ^ k := by push_cast; ring
    rw [hN, ← hdc]
    push_cast
    exact mul_div_mul_right _ _ hcne
  by_cases hneg : q.num < 0
  · have hshape : numData q ++ rest =
        ('-') :: (natToStr (N / 10 ^ k) ++ ('.') :: (natToStrPad k (N % 10 ^ k) ++ rest)) := by
      rw [hdump, if_pos hneg]
      simp only [List.cons_append, List.nil_append, List.append_assoc]
    rw [hshape]
    have hred : parseNumR (('-') ::
        (natToStr (N / 10 ^ k) ++ ('.') :: (natToStrPad k (N % 10 ^ k) ++ rest))) =
        parseNumRCore true
          (natToStr (N / 10 ^ k) ++ ('.') :: (natToStrPad k (N % 10 ^ k) ++ rest)) := rfl
    rw [hred, parseNumRCore_eval _ _ hkpos hfr true hrest]
    have hval : -((((N / 10 ^ k : Nat) : Rat) * (10 : Rat) ^ k + ((N % 10 ^ k : Nat) : Rat)) /
        (10 : Rat) ^ k) = q := by
      rw [habs]
      have hna : ((q.num.natAbs : Rat)) = -((q.num : Rat)) := by
        rw [Int.cast_natAbs, abs_of_nonpos (by exact_mod_cast le_of_lt hneg)]
        push_cast
        ring
      rw [hna, neg_div, neg_neg, Rat.num_div_den]
    simp only [if_true, hval]
  · have hshape : numData q ++ rest =
        natToStr (N / 10 ^ k) ++ ('.') :: (natToStrPad k (N % 10 ^ k) ++ rest) := by
      rw [hdump, if_neg hneg]
      simp only [List.cons_append, List.nil_append, List.append_assoc]
    rw [hshape]
    obtain ⟨c, ds, hds⟩ : ∃ c ds, natToStr (N / 10 ^ k) = c :: ds := by
      cases h : natToStr (N / 10 ^ k) with
      | nil => exact absurd h (natToStr_ne_nil _)
      | cons c ds => exact ⟨c, ds, rfl⟩
    have hcdig : c.isDigit = true := natToStr_digits c (hds ▸ List.mem_cons_self ..)
    have hdash : (c == '-') = false := digit_not_dash hcdig
    rw [hds, List.cons_append]
    have hred : parseNumR (c :: (ds ++ ('.') :: (natToStrPad k (N % 10 ^ k) ++ rest))) =
        parseNumRCore (c == '-')
          (if c == '-' then ds ++ ('.') :: (natToStrPad k (N % 10 ^ k) ++ rest)
           else c :: (ds ++ ('.') :: (natToStrPad k (N % 10 ^ k) ++ rest))) := rfl
    rw [hred, hdash]
    simp only [Bool.false_eq_true, if_neg, ite_false]
    rw [← List.cons_append, ← hds, parseNumRCore_eval _ _ hkpos hfr false hrest]
    have hval : (((N / 10 ^ k : Nat) : Rat) * (10 : Rat) ^ k + ((N % 10 ^ k : Nat) : Rat)) /
        (10 : Rat) ^ k = q := by
      rw [habs]
      have hna : ((q.num.natAbs : Rat)) = ((q.num : Rat)) := by
        rw [Int.cast_natAbs, abs_of_nonneg (by exact_mod_cast not_lt.mp hneg)]
      rw [hna, Rat.num_div_den]
    simp only [if_false, Bool.false_eq_true, hval]

theorem head_not_digit_litEnd2 (Y : List Char) :
    ∀ c, (litEnd2 ++ Y).head? = some c → c.isDigit = false := by
  intro c hc
  have h0 : (litEnd2 ++ Y).head? = some (',') := rfl
  rw [h0] at hc
  have := Option.some.inj hc
  subst this
  decide

theorem head_not_digit_litSpk (Y : List Char) :
    ∀ c, (litSpk ++ Y).head? = some c → c.isDigit = false := by
  intro c hc
  have h0 : (litSpk ++ Y).head? = some (',') := rfl
  rw [h0] at hc
  have := Option.some.inj hc
  subst this
  decide

theorem parseSeg_chunk {s : Segment} (h : wfSeg s = true) (rest : List Char) :
    parseSeg (chunkData s ++ rest) = some (s, rest) := by
  have hparts : renderableB s.start = true ∧ renderableB s.stop = true ∧
      s.speaker.data.all plainChar = true := by
    simpa [wfSeg, Bool.and_eq_true, and_assoc] using h
  obtain ⟨h1, h2, h3⟩ := hparts
  have e1 : chunkData s ++ rest =
      litStart ++ (numData s.start ++ (litEnd2 ++ (numData s.stop ++
        (litSpk ++ (s.speaker.data ++ ('"') :: (litObjEnd ++ rest)))))) := by
    simp only [chunkData, List.append_assoc, List.cons_append]
  rw [e1]
  unfold parseSeg
  rw [expectL_append]
  simp only []
  rw [parseNumR_numData h1 (head_not_digit_litEnd2 _)]
  simp only []
  rw [expectL_append]
  simp only []
  rw [parseNumR_numData h2 (head_not_digit_litSpk _)]
  simp only []
  rw [expectL_append]
  simp only []
  rw [readLabel_append h3]
  simp only []
  rw [expectL_append]

theorem chunkData_len (s : Segment) : 1 ≤ (chunkData s).length := by
  have h15 : litStart.length = 15 := by decide
  simp only [chunkData, List.length_append, h15]
  omega

theorem bodyData_len (ss : List Segment) : ss.length ≤ (bodyData ss).length := by
  induction ss with
  | nil => simp [bodyData]
  | cons s rest ih =>
    cases rest with
    | nil =>
      have := chunkData_len s
      simp only [bodyData, List.length_cons, List.length_nil]
      omega
    | cons t rest2 =>
      have hc := chunkData_len s
      simp only [bodyData, List.length_append, List.length_cons] at ih ⊢
      omega

theorem loadLoop_body : ∀ (ss : List Segment) (f : Nat), wfSegs ss = true → ss ≠ [] →
    loadLoop (ss.length + f + 1) (bodyData ss ++ ("\n]").data) = some ss := by
  intro ss
  induction ss with
  | nil => intro f _ hne; exact absurd rfl hne
  | cons s rest ih =>
    intro f hwf _
    have hs : wfSeg s = true ∧ wfSegs rest = true := by
      simpa [wfSegs, Bool.and_eq_true] using hwf
    cases rest with
    | nil =>
      have harith : ([s] : List Segment).length + f + 1 = (f + 1) + 1 := by simp; omega
      rw [harith]
      unfold loadLoop
      rw [show bodyData [s] = chunkData s from rfl, parseSeg_chunk hs.1]
      simp only []
      rfl
    | cons t rest2 =>
      have hbody : bodyData (s :: t :: rest2) ++ ("\n]").data =
          chunkData s ++ (litSep ++ (bodyData (t :: rest2) ++ ("\n]").data)) := by
        simp only [bodyData, List.append_assoc]
      have harith : (s :: t :: rest2).length + f + 1 =
          ((t :: rest2).length + f + 1) + 1 := by
        simp only [List.length_cons]
        omega
      rw [harith, hbody]
      unfold loadLoop
      rw [parseSeg_chunk hs.1]
      simp only []
      rw [expectL_append]
      simp only []
      rw [ih f hs.2 (by simp)]

theorem loadSegments_dump {ss : List Segment} (h : wfSegs ss = true) :
    loadSegments (dumpSegments ss) = some ss := by
  cases ss with
  | nil => rfl
  | cons s rest =>
    have e2 : loadSegments (dumpSegments (s :: rest)) =
        loadLoop ((bodyData (s :: rest) ++ ("\n]").data).length + 1)
          (bodyData (s :: rest) ++ ("\n]").data) := rfl
    have hlen := bodyData_len (s :: rest)
    have hf : (bodyData (s :: rest) ++ ("\n]").data).length + 1 =
        (s :: rest).length + ((bodyData (s :: rest)).length + 2 - (s :: rest).length) + 1 := by
      have h2 : (("\n]").data : List Char).length = 2 := by decide
      simp only [List.length_append, List.length_cons, h2]
      simp only [List.length_cons] at hlen
      omega
    rw [e2, hf, loadLoop_body _ _ h (by simp)]

/-! ### A generic JSON acceptor

`jsonOk` below checks whether a byte string is a valid JSON document in
the sense of Python's `json.load`: optional whitespace, one JSON value
(object, array, string, number, `true`, `false`, `null`, and Python's
`Infinity`, `-Infinity`, `NaN` extensions), optional whitespace, end of
input.  String bodies are checked loosely (any escaped character is
accepted), which only widens the acceptor; the theorems that deny
validity of a byte string therefore deny it for `json.load` as well. -/

/-- Drops leading JSON whitespace. -/
def skipWs : List Char → List Char
  | [] => []
  | c :: r => if wsChar c then skipWs r else c :: r

/-- Consumes a JSON string body after the opening quote. -/
def parseStrRest : List Char → Option (List Char)
  | [] => none
  | c :: r =>
    if c = '"' then some r
    else if c = '\\' then
      match r with
      | [] => none
      | _ :: r2 => parseStrRest r2
    else parseStrRest r

/-- Characters that can occur in a JSON number token. -/
def numChar (c : Char) : Bool :=
  c.isDigit || c = '-' || c = '+' || c = '.' || c = 'e' || c = 'E'

/-- Splits off the leading run of number characters. -/
def readNum : List Char → List Char × List Char
  | [] => ([], [])
  | c :: r =>
    if numChar c then
      let p := readNum r
      (c :: p.1, p.2)
    else ([], c :: r)

/-- Checks an optional exponent part after the mantissa. -/
def expOk (t : List Char) : Bool :=
  match t with
  | [] => true
  | e :: r =>
    (e = 'e' || e = 'E') &&
      (let r2 := match r with
        | s :: r2 => if s = '+' || s = '-' then r2 else s :: r2
        | [] => []
      (readDigits r2).1 ≠ [] && (readDigits r2).2 = [])

/-- Checks an optional fraction (and exponent) after the integer part. -/
def fracOk (t : List Char) : Bool :=
  match t with
  | [] => true
  | c :: r =>
    if c = '.' then
      (readDigits r).1 ≠ [] && expOk (readDigits r).2
    else expOk (c :: r)

/-- Checks that a token is a well-formed JSON number. -/
def numOk (t : List Char) : Bool :=
  let t1 := match t with
    | c :: r => if c = '-' then r else c :: r
    | [] => []
  (readDigits t1).1 ≠ [] && fracOk (readDigits t1).2

/-- Consumes a JSON number from the front of the input. -/
def parseNumber (l : List Char) : Option (List Char) :=
  if numOk (readNum l).1 then some (readNum l).2 else none

mutual

/-- Consumes one JSON value. -/
def parseVal : Nat → List Char → Option (List Char)
  | 0, _ => none
  | f + 1, l =>
    match l with
    | [] => none
    | c :: r =>
      if c = '"' then parseStrRest r
      else if c = '[' then
        match skipWs r with
        | ']' :: r2 => some r2
        | r1 => parseElems f r1
      else if c = '\x7b' then
        match skipWs r with
        | '\x7d' :: r2 => some r2
        | r1 => parseMembers f r1
      else if c = 't' then expectL (("rue").data) r
      else if c = 'f' then expectL (("alse").data) r
      else if c = 'n' then expectL (("ull").data) r
      else if c = 'I' then expectL (("nfinity").data) r
      else if c = 'N' then expectL (("aN").data) r
      else if c = '-' then
        match r with
        | 'I' :: r2 => expectL (("nfinity").data) r2
        | _ => parseNumber (c :: r)
      else parseNumber (c :: r)

/-- Consumes the elements of a non-empty array and the closing bracket. -/
def parseElems : Nat → List Char → Option (List Char)
  | 0, _ => none
  | f + 1, l =>
    match parseVal f l with
    | none => none
    | some r =>
      match skipWs r with
      | ',' :: r2 => parseElems f (skipWs r2)
      | ']' :: r2 => some r2
      | _ => none

/-- Consumes the members of a non-empty object and the closing brace. -/
def parseMembers : Nat → List Char → Option (List Char)
  | 0, _ => none
  | f + 1, l =>
    match l with
    | '"' :: r =>
      match parseStrRest r with
      | none => none
      | some r1 =>
        match skipWs r1 with
        | ':' :: r2 =>
          match parseVal f (skipWs r2) with
          | none => none
          | some r3 =>
            match skipWs r3 with
            | ',' :: r4 => parseMembers f (skipWs r4)
            | '\x7d' :: r4 => some r4
            | _ => none
        | _ => none
    | _ => none

end

/-- Whether a byte list is a complete valid JSON document. -/
def jsonOkL (l : List Char) : Bool :=
  match parseVal ((skipWs l).length + 1) (skipWs l) with
  | some r => skipWs r = []
  | none => false

/-- Whether a string is a complete valid JSON document. -/
def jsonOk (s : String) : Bool := jsonOkL s.data

/-! ### Bracket/string scanner

A valid JSON document is balanced: scanning it with the automaton below
(tracking bracket depth outside of string literals) returns to depth 0
in normal mode.  A proper prefix of a serialized document is never
balanced, which is how the no-valid-partial-file theorem is proved. -/

/-- Scanner mode: outside a string, inside a string, after a backslash. -/
inductive Mode
  | normal
  | inStr
  | esc
  deriving DecidableEq

/-- Scanner state: bracket depth and mode. -/
structure ScanSt where
  depth : Nat
  mode : Mode
  deriving DecidableEq

/-- One scanner step. -/
def scanStep (st : ScanSt) (c : Char) : ScanSt :=
  match st.mode with
  | .normal =>
    if c = '"' then ⟨st.depth, .inStr⟩
    else if c = '[' || c = '\x7b' then ⟨st.depth + 1, .normal⟩
    else if c = ']' || c = '\x7d' then ⟨st.depth - 1, .normal⟩
    else st
  | .inStr =>
    if c = '"' then ⟨st.depth, .normal⟩
    else if c = '\\' then ⟨st.depth, .esc⟩
    else st
  | .esc => ⟨st.depth, .inStr⟩

/-- Scans a byte list from a given state. -/
def scanFrom (st : ScanSt) (l : List Char) : ScanSt := l.foldl scanStep st

/-- Characters that do not change the scanner state in normal mode. -/
def normalNeutral (c : Char) : Bool :=
  !(c = '"' || c = '[' || c = '\x7b' || c = ']' || c = '\x7d')

theorem scanFrom_append (st : ScanSt) (a b : List Char) :
    scanFrom st (a ++ b) = scanFrom (scanFrom st a) b :=
  List.foldl_append ..

theorem scanStep_neutral {c : Char} (h : normalNeutral c = true) (d : Nat) :
    scanStep ⟨d, .normal⟩ c = ⟨d, .normal⟩ := by
  simp only [normalNeutral, Bool.not_eq_true', Bool.or_eq_false_iff,
    decide_eq_false_iff_not] at h
  simp [scanStep, h.1.1.1.1, h.1.1.1.2, h.1.1.2, h.1.2, h.2]

theorem scanFrom_neutral {l : List Char} (h : ∀ c ∈ l, normalNeutral c = true) (d : Nat) :
    scanFrom ⟨d, .normal⟩ l = ⟨d, .normal⟩ := by
  induction l with
  | nil => rfl
  | cons c r ih =>
    have hc := h c (List.mem_cons_self ..)
    show scanFrom (scanStep ⟨d, .normal⟩ c) r = ⟨d, .normal⟩
    rw [scanStep_neutral hc]
    exact ih fun x hx => h x (List.mem_cons_of_mem _ hx)

theorem scanStep_inStr {c : Char} (h1 : c ≠ '"') (h2 : c ≠ '\\') (d : Nat) :
    scanStep ⟨d, .inStr⟩ c = ⟨d, .inStr⟩ := by
  simp [scanStep, h1, h2]

/-- `skipWs` removes a whitespace run. -/
theorem skipWs_sound (l : List Char) :
    ∃ w, l = w ++ skipWs l ∧ ∀ c ∈ w, wsChar c = true := by
  induction l with
  | nil => exact ⟨[], rfl, by simp⟩
  | cons c r ih =>
    by_cases hc : wsChar c = true
    · obtain ⟨w, hw, hall⟩ := ih
      refine ⟨c :: w, ?_, ?_⟩
      · simp only [skipWs, if_pos hc, List.cons_append]
        exact congrArg (c :: ·) hw
      · intro x hx
        rcases List.mem_cons.mp hx with rfl | hx
        · exact hc
        · exact hall x hx
    · refine ⟨[], ?_, by simp⟩
      simp [skipWs, hc]

theorem wsChar_neutral {c : Char} (h : wsChar c = true) : normalNeutral c = true := by
  simp only [wsChar, Bool.or_eq_true, decide_eq_true_eq] at h
  rcases h with ((rfl | rfl) | rfl) | rfl <;> decide

theorem skipWs_scan {l : List Char} (d : Nat) :
    scanFrom ⟨d, .normal⟩ l = scanFrom ⟨d, .normal⟩ (skipWs l) := by
  obtain ⟨w, hw, hall⟩ := skipWs_sound l
  conv_lhs => rw [hw]
  rw [scanFrom_append, scanFrom_neutral (fun c hc => wsChar_neutral (hall c hc))]

/-- `skipWs` returning the empty list means the input was all whitespace. -/
theorem skipWs_nil {l : List Char} (h : skipWs l = []) : ∀ c ∈ l, wsChar c = true := by
  induction l with
  | nil => simp
  | cons c r ih =>
    intro x hx
    by_cases hc : wsChar c = true
    · rw [skipWs, if_pos hc] at h
      rcases List.mem_cons.mp hx with rfl | hx
      · exact hc
      · exact ih h x hx
    · rw [skipWs, if_neg hc] at h
      exact absurd h (by simp)

/-- The string-body reader consumes through the closing quote. -/
theorem parseStrRest_sound : ∀ l r : List Char, parseStrRest l = some r →
    ∃ c, l = c ++ r ∧ ∀ d, scanFrom ⟨d, .inStr⟩ c = ⟨d, .normal⟩ := by
  suffices H : ∀ n, ∀ l r : List Char, l.length ≤ n → parseStrRest l = some r →
      ∃ c, l = c ++ r ∧ ∀ d, scanFrom ⟨d, .inStr⟩ c = ⟨d, .normal⟩ by
    exact fun l r h => H l.length l r le_rfl h
  intro n
  induction n with
  | zero =>
    intro l r hlen h
    have : l = [] := List.eq_nil_of_length_eq_zero (by omega)
    subst this
    exact absurd h (by simp [parseStrRest])
  | succ n ih =>
    intro l r hlen h
    cases l with
    | nil => exact absurd h (by simp [parseStrRest])
    | cons c l2 =>
      by_cases hq : c = '"'
      · subst hq
        unfold parseStrRest at h
        rw [if_pos rfl] at h
        have hr : l2 = r := Option.some.inj h
        subst hr
        refine ⟨[('"')], rfl, fun d => ?_⟩
        simp [scanFrom, scanStep]
      · by_cases hb : c = '\\'
        · subst hb
          unfold parseStrRest at h
          rw [if_neg (by decide), if_pos rfl] at h
          cases l2 with
          | nil => exact absurd h (by simp)
          | cons e l3 =>
            simp only [List.length_cons] at hlen
            obtain ⟨cc, hcc, hscan⟩ := ih l3 r (by omega) h
            refine ⟨('\\') :: e :: cc, by simp [hcc], fun d => ?_⟩
            show scanFrom (scanStep ⟨d, .inStr⟩ ('\\')) (e :: cc) = ⟨d, .normal⟩
            rw [show scanStep ⟨d, .inStr⟩ ('\\') = ⟨d, .esc⟩ from by simp [scanStep]]
            show scanFrom (scanStep ⟨d, .esc⟩ e) cc = ⟨d, .normal⟩
            rw [show scanStep ⟨d, .esc⟩ e = ⟨d, .inStr⟩ from rfl]
            exact hscan d
        · unfold parseStrRest at h
          rw [if_neg hq, if_neg hb] at h
          simp only [List.length_cons] at hlen
          obtain ⟨cc, hcc, hscan⟩ := ih l2 r (by omega) h
          refine ⟨c :: cc, by simp [hcc], fun d => ?_⟩
          show scanFrom (scanStep ⟨d, .inStr⟩ c) cc = ⟨d, .normal⟩
          rw [scanStep_inStr hq hb]
          exact hscan d

theorem scanFrom_cons (st : ScanSt) (c : Char) (l : List Char) :
    scanFrom st (c :: l) = scanFrom (scanStep st c) l := rfl

theorem scanStep_quote (d : Nat) : scanStep ⟨d, .normal⟩ ('"') = ⟨d, .inStr⟩ := by
  simp [scanStep]

theorem scanStep_openB (d : Nat) : scanStep ⟨d, .normal⟩ ('[') = ⟨d + 1, .normal⟩ := by
  simp [scanStep]

theorem scanStep_openC (d : Nat) : scanStep ⟨d, .normal⟩ ('\x7b') = ⟨d + 1, .normal⟩ := by
  simp [scanStep]

theorem scanStep_closeB (d : Nat) : scanStep ⟨d, .normal⟩ (']') = ⟨d - 1, .normal⟩ := by
  simp [scanStep]

theorem scanStep_closeC (d : Nat) : scanStep ⟨d, .normal⟩ ('\x7d') = ⟨d - 1, .normal⟩ := by
  simp [scanStep]

theorem digit_neutral {c : Char} (h : c.isDigit = true) : normalNeutral c = true := by
  simp only [normalNeutral, Bool.not_eq_true', Bool.or_eq_false_iff, decide_eq_false_iff_not]
  refine ⟨⟨⟨⟨?_, ?_⟩, ?_⟩, ?_⟩, ?_⟩ <;> · rintro rfl; exact absurd h (by decide)

theorem numChar_neutral {c : Char} (h : numChar c = true) : normalNeutral c = true := by
  simp only [numChar, Bool.or_eq_true, decide_eq_true_eq] at h
  rcases h with ((((hd | rfl) | rfl) | rfl) | rfl) | rfl
  · exact digit_neutral hd
  all_goals decide

theorem readNum_split (l : List Char) :
    l = (readNum l).1 ++ (readNum l).2 ∧ ∀ c ∈ (readNum l).1, numChar c = true := by
  induction l with
  | nil => simp [readNum]
  | cons c r ih =>
    by_cases hc : numChar c = true
    · refine ⟨?_, ?_⟩
      · simp only [readNum, if_pos hc]
        exact congrArg (c :: ·) ih.1
      · intro x hx
        simp only [readNum, if_pos hc] at hx
        rcases List.mem_cons.mp hx with rfl | hx
        · exact hc
        · exact ih.2 x hx
    · constructor
      · simp [readNum, hc]
      · intro x hx
        simp [readNum, hc] at hx

theorem parseNumber_sound {l r : List Char} (h : parseNumber l = some r) :
    ∃ c, l = c ++ r ∧ ∀ x ∈ c, numChar x = true := by
  unfold parseNumber at h
  split at h
  · have hr : (readNum l).2 = r := Option.some.inj h
    exact ⟨(readNum l).1, hr ▸ (readNum_split l).1, (readNum_split l).2⟩
  · exact absurd h (by simp)

theorem parseVal_zero (l : List Char) : parseVal 0 l = none := rfl

theorem parseElems_zero (l : List Char) : parseElems 0 l = none := rfl

theorem parseMembers_zero (l : List Char) : parseMembers 0 l = none := rfl

theorem parseVal_nil (f : Nat) : parseVal (f + 1) [] = none := rfl

theorem parseVal_cons (f : Nat) (c : Char) (r : List Char) :
    parseVal (f + 1) (c :: r) =
      (if c = '"' then parseStrRest r
      else if c = '[' then
        match skipWs r with
        | ']' :: r2 => some r2
        | r1 => parseElems f r1
      else if c = '\x7b' then
        match skipWs r with
        | '\x7d' :: r2 => some r2
        | r1 => parseMembers f r1
      else if c = 't' then expectL (("rue").data) r
      else if c = 'f' then expectL (("alse").data) r
      else if c = 'n' then expectL (("ull").data) r
      else if c = 'I' then expectL (("nfinity").data) r
      else if c = 'N' then expectL (("aN").data) r
      else if c = '-' then
        match r with
        | 'I' :: r2 => expectL (("nfinity").data) r2
        | _ => parseNumber (c :: r)
      else parseNumber (c :: r)) := rfl

theorem parseElems_succ (f : Nat) (l : List Char) :
    parseElems (f + 1) l =
      (match parseVal f l with
      | none => none
      | some r =>
        match skipWs r with
        | ',' :: r2 => parseElems f (skipWs r2)
        | ']' :: r2 => some r2
        | _ => none) := rfl

theorem parseMembers_succ (f : Nat) (l : List Char) :
    parseMembers (f + 1) l =
      (match l with
      | '"' :: r =>
        match parseStrRest r with
        | none => none
        | some r1 =>
          match skipWs r1 with
          | ':' :: r2 =>
            match parseVal f (skipWs r2) with
            | none => none
            | some r3 =>
              match skipWs r3 with
              | ',' :: r4 => parseMembers f (skipWs r4)
              | '\x7d' :: r4 => some r4
              | _ => none
          | _ => none
      | _ => none) := rfl

/-- Scanning the consumed text of a value returns to the same state. -/
def ValScan (c : List Char) : Prop :=
  ∀ d, scanFrom ⟨d, .normal⟩ c = ⟨d, .normal⟩

/-- Scanning the consumed tail of an array or object closes one bracket. -/
def CloseScan (c : List Char) : Prop :=
  ∀ d, scanFrom ⟨d + 1, .normal⟩ c = ⟨d, .normal⟩

theorem parsers_scan (f : Nat) :
    (∀ l r, parseVal f l = some r → ∃ c, l = c ++ r ∧ ValScan c) ∧
    (∀ l r, parseElems f l = some r → ∃ c, l = c ++ r ∧ CloseScan c) ∧
    (∀ l r, parseMembers f l = some r → ∃ c, l = c ++ r ∧ CloseScan c) := by
  induction f with
  | zero =>
    refine ⟨fun l r h => ?_, fun l r h => ?_, fun l r h => ?_⟩
    · rw [parseVal_zero] at h
      exact absurd h (by simp)
    · rw [parseElems_zero] at h
      exact absurd h (by simp)
    · rw [parseMembers_zero] at h
      exact absurd h (by simp)
  | succ f ih =>
    obtain ⟨ihV, ihE, ihM⟩ := ih
    refine ⟨?_, ?_, ?_⟩
    · -- parseVal
      intro l r h
      cases l with
      | nil =>
        rw [parseVal_nil] at h
        exact absurd h (by simp)
      | cons c r0 =>
        rw [parseVal_cons] at h
        by_cases h1 : c = '"'
        · subst h1
          rw [if_pos rfl] at h
          obtain ⟨cc, hsplit, hscan⟩ := parseStrRest_sound r0 r h
          refine ⟨('"') :: cc, by simp [hsplit], fun d => ?_⟩
          rw [scanFrom_cons, scanStep_quote]
          exact hscan d
        · rw [if_neg h1] at h
          by_cases h2 : c = '['
          · subst h2
            rw [if_pos rfl] at h
            obtain ⟨w, hw, hwall⟩ := skipWs_sound r0
            split at h
            · rename_i r2 heq
              have hr : r2 = r := Option.some.inj h
              subst hr
              refine ⟨('[') :: (w ++ [(']')]), ?_, fun d => ?_⟩
              · rw [hw, heq]
                simp
              · rw [scanFrom_cons, scanStep_openB, scanFrom_append,
                  scanFrom_neutral (fun x hx => wsChar_neutral (hwall x hx)),
                  show scanFrom ⟨d + 1, .normal⟩ [(']')] =
                    scanStep ⟨d + 1, .normal⟩ (']') from rfl, scanStep_closeB]
                simp
            · obtain ⟨ce, hce, hscan⟩ := ihE (skipWs r0) r h
              refine ⟨('[') :: (w ++ ce), ?_, fun d => ?_⟩
              · rw [hw, hce]
                simp
              · rw [scanFrom_cons, scanStep_openB, scanFrom_append,
                  scanFrom_neutral (fun x hx => wsChar_neutral (hwall x hx))]
                exact hscan d
          · rw [if_neg h2] at h
            by_cases h3 : c = '\x7b'
            · subst h3
              rw [if_pos rfl] at h
              obtain ⟨w, hw, hwall⟩ := skipWs_sound r0
              split at h
              · rename_i r2 heq
                have hr : r2 = r := Option.some.inj h
                subst hr
                refine ⟨('\x7b') :: (w ++ [('\x7d')]), ?_, fun d => ?_⟩
                · rw [hw, heq]
                  simp
                · rw [scanFrom_cons, scanStep_openC, scanFrom_append,
                    scanFrom_neutral (fun x hx => wsChar_neutral (hwall x hx)),
                    show scanFrom ⟨d + 1, .normal⟩ [('\x7d')] =
                      scanStep ⟨d + 1, .normal⟩ ('\x7d') from rfl, scanStep_closeC]
                  simp
              · obtain ⟨ce, hce, hscan⟩ := ihM (skipWs r0) r h
                refine ⟨('\x7b') :: (w ++ ce), ?_, fun d => ?_⟩
                · rw [hw, hce]
                  simp
                · rw [scanFrom_cons, scanStep_openC, scanFrom_append,
                    scanFrom_neutral (fun x hx => wsChar_neutral (hwall x hx))]
                  exact hscan d
            · rw [if_neg h3] at h
              by_cases h4 : c = 't'
              · subst h4
                rw [if_pos rfl] at h
                have hsplit := expectL_sound h
                exact ⟨('t') :: ("rue").data, by simp [hsplit],
                  fun d => scanFrom_neutral (by decide) d⟩
              · rw [if_neg h4] at h
                by_cases h5 : c = 'f'
                · subst h5
                  rw [if_pos rfl] at h
                  have hsplit := expectL_sound h
                  exact ⟨('f') :: ("alse").data, by simp [hsplit],
                    fun d => scanFrom_neutral (by decide) d⟩
                · rw [if_neg h5] at h
                  by_cases h6 : c = 'n'
                  · subst h6
                    rw [if_pos rfl] at h
                    have hsplit := expectL_sound h
                    exact ⟨('n') :: ("ull").data, by simp [hsplit],
                      fun d => scanFrom_neutral (by decide) d⟩
                  · rw [if_neg h6] at h
                    by_cases h7 : c = 'I'
                    · subst h7
                      rw [if_pos rfl] at h
                      have hsplit := expectL_sound h
                      exact ⟨('I') :: ("nfinity").data, by simp [hsplit],
                        fun d => scanFrom_neutral (by decide) d⟩
                    · rw [if_neg h7] at h
                      by_cases h8 : c = 'N'
                      · subst h8
                        rw [if_pos rfl] at h
                        have hsplit := expectL_sound h
                        exact ⟨('N') :: ("aN").data, by simp [hsplit],
                          fun d => scanFrom_neutral (by decide) d⟩
                      · rw [if_neg h8] at h
                        by_cases h9 : c = '-'
                        · subst h9
                          rw [if_pos rfl] at h
                          split at h
                          · rename_i x1 x2
                            have hsplit := expectL_sound h
                            refine ⟨('-') :: ('I') :: ("nfinity").data, ?_,
                              fun d => scanFrom_neutral (by decide) d⟩
                            rw [hsplit]
                            simp
                          · obtain ⟨cc, hcc, hnums⟩ := parseNumber_sound h
                            exact ⟨cc, hcc, fun d =>
                              scanFrom_neutral (fun x hx => numChar_neutral (hnums x hx)) d⟩
                        · rw [if_neg h9] at h
                          obtain ⟨cc, hcc, hnums⟩ := parseNumber_sound h
                          exact ⟨cc, hcc, fun d =>
                            scanFrom_neutral (fun x hx => numChar_neutral (hnums x hx)) d⟩
    · -- parseElems
      intro l r h
      rw [parseElems_succ] at h
      split at h
      · simp at h
      · rename_i r1 heq1
        obtain ⟨cv, hcv, hscanv⟩ := ihV l r1 heq1
        obtain ⟨w1, hw1, hw1all⟩ := skipWs_sound r1
        split at h
        · rename_i r2 heq2
          obtain ⟨w2, hw2, hw2all⟩ := skipWs_sound r2
          obtain ⟨ce, hce, hscane⟩ := ihE (skipWs r2) r h
          refine ⟨cv ++ (w1 ++ (',') :: (w2 ++ ce)), ?_, fun d => ?_⟩
          · rw [hcv, hw1, heq2, hw2, hce]
            simp
          · rw [scanFrom_append, hscanv, scanFrom_append,
              scanFrom_neutral (fun x hx => wsChar_neutral (hw1all x hx)),
              scanFrom_cons, scanStep_neutral (by decide), scanFrom_append,
              scanFrom_neutral (fun x hx => wsChar_neutral (hw2all x hx))]
            exact hscane d
        · rename_i r2 heq2
          have hr : r2 = r := Option.some.inj h
          subst hr
          refine ⟨cv ++ (w1 ++ [(']')]), ?_, fun d => ?_⟩
          · rw [hcv, hw1, heq2]
            simp
          · rw [scanFrom_append, hscanv, scanFrom_append,
              scanFrom_neutral (fun x hx => wsChar_neutral (hw1all x hx)),
              show scanFrom ⟨d + 1, .normal⟩ [(']')] =
                scanStep ⟨d + 1, .normal⟩ (']') from rfl, scanStep_closeB]
            simp
        · simp at h
    · -- parseMembers
      intro l r h
      rw [parseMembers_succ] at h
      split at h
      · rename_i r0
        split at h
        · simp at h
        · rename_i r1 heq1
          obtain ⟨cs, hcs, hscans⟩ := parseStrRest_sound r0 r1 heq1
          obtain ⟨w1, hw1, hw1all⟩ := skipWs_sound r1
          split at h
          · rename_i r2 heq2
            obtain ⟨w2, hw2, hw2all⟩ := skipWs_sound r2
            split at h
            · simp at h
            · rename_i r3 heq3
              obtain ⟨cv, hcv, hscanv⟩ := ihV _ _ heq3
              obtain ⟨w3, hw3, hw3all⟩ := skipWs_sound r3
              split at h
              · rename_i r4 heq4
                obtain ⟨w4, hw4, hw4all⟩ := skipWs_sound r4
                obtain ⟨cm, hcm, hscanm⟩ := ihM _ _ h
                refine ⟨('"') :: (cs ++ (w1 ++ (':') :: (w2 ++ (cv ++
                  (w3 ++ (',') :: (w4 ++ cm)))))), ?_, fun d => ?_⟩
                · rw [hcs, hw1, heq2, hw2, hcv, hw3, heq4, hw4, hcm]
                  simp
                · rw [scanFrom_cons, scanStep_quote, scanFrom_append, hscans,
                    scanFrom_append,
                    scanFrom_neutral (fun x hx => wsChar_neutral (hw1all x hx)),
                    scanFrom_cons, scanStep_neutral (by decide), scanFrom_append,
                    scanFrom_neutral (fun x hx => wsChar_neutral (hw2all x hx)),
                    scanFrom_append, hscanv, scanFrom_append,
                    scanFrom_neutral (fun x hx => wsChar_neutral (hw3all x hx)),
                    scanFrom_cons, scanStep_neutral (by decide), scanFrom_append,
                    scanFrom_neutral (fun x hx => wsChar_neutral (hw4all x hx))]
                  exact hscanm d
              · rename_i r4 heq4
                have hr : r4 = r := Option.some.inj h
                subst hr
                refine ⟨('"') :: (cs ++ (w1 ++ (':') :: (w2 ++ (cv ++
                  (w3 ++ [('\x7d')]))))), ?_, fun d => ?_⟩
                · rw [hcs, hw1, heq2, hw2, hcv, hw3, heq4]
                  simp
                · rw [scanFrom_cons, scanStep_quote, scanFrom_append, hscans,
                    scanFrom_append,
                    scanFrom_neutral (fun x hx => wsChar_neutral (hw1all x hx)),
                    scanFrom_cons, scanStep_neutral (by decide), scanFrom_append,
                    scanFrom_neutral (fun x hx => wsChar_neutral (hw2all x hx)),
                    scanFrom_append, hscanv, scanFrom_append,
                    scanFrom_neutral (fun x hx => wsChar_neutral (hw3all x hx)),
                    show scanFrom ⟨d + 1, .normal⟩ [('\x7d')] =
                      scanStep ⟨d + 1, .normal⟩ ('\x7d') from rfl, scanStep_closeC]
                  simp
              · simp at h
          · simp at h
      · simp at h

/-- A valid document scans to depth 0 in normal mode. -/
theorem jsonOkL_scan {l : List Char} (h : jsonOkL l = true) :
    scanFrom ⟨0, .normal⟩ l = ⟨0, .normal⟩ := by
  unfold jsonOkL at h
  split at h
  · rename_i r heq
    have hr : skipWs r = [] := by simpa using h
    obtain ⟨cv, hcv, hscan⟩ := (parsers_scan _).1 _ _ heq
    obtain ⟨w, hw, hwall⟩ := skipWs_sound l
    have hrws : ∀ c ∈ r, wsChar c = true := skipWs_nil hr
    rw [hw, hcv, scanFrom_append,
      scanFrom_neutral (fun c hc => wsChar_neutral (hwall c hc)),
      scanFrom_append, hscan,
      scanFrom_neutral (fun c hc => wsChar_neutral (hrws c hc))]
  · exact absurd h (by simp)

/-- A scanner state that cannot be the final state of a valid document. -/
def notGoodB (st : ScanSt) : Bool :=
  decide (1 ≤ st.depth) || decide (st.mode ≠ Mode.normal)

/-- All states passed through while scanning `l` from `st` are not good. -/
def staysB : ScanSt → List Char → Bool
  | st, [] => notGoodB st
  | st, c :: cs => notGoodB st && staysB (scanStep st c) cs

theorem staysB_head {st : ScanSt} {l : List Char} (h : staysB st l = true) :
    notGoodB st = true := by
  cases l with
  | nil => exact h
  | cons c cs =>
    simp only [staysB, Bool.and_eq_true] at h
    exact h.1

theorem staysB_append {st : ScanSt} {a b : List Char} :
    staysB st (a ++ b) = true ↔
      staysB st a = true ∧ staysB (scanFrom st a) b = true := by
  induction a generalizing st with
  | nil =>
    simp only [List.nil_append, staysB, scanFrom]
    constructor
    · intro h
      exact ⟨staysB_head h, by simpa using h⟩
    · intro h
      exact h.2
  | cons c cs ih =>
    simp only [List.cons_append, staysB, Bool.and_eq_true, scanFrom_cons, List.append_eq]
    rw [ih]
    tauto

/-- Every position inside a `staysB` run is a not-good state. -/
theorem staysB_states {l : List Char} : ∀ {st : ScanSt}, staysB st l = true →
    ∀ p t, p ++ t = l → notGoodB (scanFrom st p) = true := by
  induction l with
  | nil =>
    intro st h p t hpt
    have hp : p = [] := by
      cases p with
      | nil => rfl
      | cons c cs => simp at hpt
    subst hp
    exact h
  | cons c cs ih =>
    intro st h p t hpt
    simp only [staysB, Bool.and_eq_true] at h
    cases p with
    | nil => exact h.1
    | cons x xs =>
      have hx : x = c ∧ xs ++ t = cs := by
        have := List.cons.injEq x (xs ++ t) c cs ▸ hpt
        simp only [List.cons_append] at hpt
        exact ⟨(List.cons.inj hpt).1, (List.cons.inj hpt).2⟩
      obtain ⟨rfl, hxs⟩ := hx
      rw [scanFrom_cons]
      exact ih h.2 xs t hxs

theorem staysB_neutral {l : List Char} (h : ∀ c ∈ l, normalNeutral c = true)
    {d : Nat} (hd : 1 ≤ d) : staysB ⟨d, .normal⟩ l = true := by
  induction l with
  | nil => simpa [staysB, notGoodB]
  | cons c cs ih =>
    simp only [staysB, Bool.and_eq_true]
    refine ⟨by simpa [notGoodB], ?_⟩
    rw [scanStep_neutral (h c (List.mem_cons_self ..))]
    exact ih fun x hx => h x (List.mem_cons_of_mem _ hx)

theorem staysB_inStrPlain {l : List Char} (h : ∀ c ∈ l, plainChar c = true)
    (d : Nat) : staysB ⟨d, .inStr⟩ l = true := by
  induction l with
  | nil => simp [staysB, notGoodB]
  | cons c cs ih =>
    simp only [staysB, Bool.and_eq_true]
    refine ⟨by simp [notGoodB], ?_⟩
    obtain ⟨h1, h2⟩ := plainChar_spec (h c (List.mem_cons_self ..))
    rw [scanStep_inStr h1 h2]
    exact ih fun x hx => h x (List.mem_cons_of_mem _ hx)

theorem scanFrom_inStrPlain {l : List Char} (h : ∀ c ∈ l, plainChar c = true)
    (d : Nat) : scanFrom ⟨d, .inStr⟩ l = ⟨d, .inStr⟩ := by
  induction l with
  | nil => rfl
  | cons c cs ih =>
    obtain ⟨h1, h2⟩ := plainChar_spec (h c (List.mem_cons_self ..))
    rw [scanFrom_cons, scanStep_inStr h1 h2]
    exact ih fun x hx => h x (List.mem_cons_of_mem _ hx)

theorem isDigit_numChar {c : Char} (h : c.isDigit = true) : numChar c = true := by
  simp [numChar, h]

theorem numData_chars (q : Rat) : ∀ c ∈ numData q, numChar c = true := by
  unfold numData
  split
  · intro c hc
    fin_cases hc <;> decide
  · intro c hc
    simp only [List.append_assoc, List.mem_append, List.mem_singleton] at hc
    rcases hc with hs | hd1 | hdot | hd2
    · split at hs
      · simp only [List.mem_singleton] at hs
        subst hs
        decide
      · simp at hs
    · exact isDigit_numChar (natToStr_digits c hd1)
    · subst hdot
      decide
    · exact isDigit_numChar (natToStrPad_digits c hd2)

theorem numData_neutral (q : Rat) : ∀ c ∈ numData q, normalNeutral c = true :=
  fun c hc => numChar_neutral (numData_chars q c hc)

/-- Scanning one serialized element from depth 1 returns to depth 1, and
every state along the way is not good. -/
theorem chunk_scan {s : Segment} (h : wfSeg s = true) :
    scanFrom ⟨1, .normal⟩ (chunkData s) = ⟨1, .normal⟩ ∧
      staysB ⟨1, .normal⟩ (chunkData s) = true := by
  have hparts : renderableB s.start = true ∧ renderableB s.stop = true ∧
      s.speaker.data.all plainChar = true := by
    simpa [wfSeg, Bool.and_eq_true, and_assoc] using h
  have hplain : ∀ c ∈ s.speaker.data, plainChar c = true := by
    simpa [List.all_eq_true] using hparts.2.2
  have e1 : chunkData s = litStart ++ (numData s.start ++ (litEnd2 ++ (numData s.stop ++
      (litSpk ++ (s.speaker.data ++ (('"') :: litObjEnd)))))) := by
    simp [chunkData, List.append_assoc]
  have s1 : scanFrom ⟨1, .normal⟩ litStart = ⟨2, .normal⟩ := by decide
  have t1 : staysB ⟨1, .normal⟩ litStart = true := by decide
  have s2 : scanFrom ⟨2, .normal⟩ (numData s.start) = ⟨2, .normal⟩ :=
    scanFrom_neutral (numData_neutral _) 2
  have t2 : staysB ⟨2, .normal⟩ (numData s.start) = true :=
    staysB_neutral (numData_neutral _) (by omega)
  have s3 : scanFrom ⟨2, .normal⟩ litEnd2 = ⟨2, .normal⟩ := by decide
  have t3 : staysB ⟨2, .normal⟩ litEnd2 = true := by decide
  have s4 : scanFrom ⟨2, .normal⟩ (numData s.stop) = ⟨2, .normal⟩ :=
    scanFrom_neutral (numData_neutral _) 2
  have t4 : staysB ⟨2, .normal⟩ (numData s.stop) = true :=
    staysB_neutral (numData_neutral _) (by omega)
  have s5 : scanFrom ⟨2, .normal⟩ litSpk = ⟨2, .inStr⟩ := by decide
  have t5 : staysB ⟨2, .normal⟩ litSpk = true := by decide
  have s6 : scanFrom ⟨2, .inStr⟩ s.speaker.data = ⟨2, .inStr⟩ :=
    scanFrom_inStrPlain hplain 2
  have t6 : staysB ⟨2, .inStr⟩ s.speaker.data = true :=
    staysB_inStrPlain hplain 2
  have s7 : scanFrom ⟨2, .inStr⟩ (('"') :: litObjEnd) = ⟨1, .normal⟩ := by decide
  have t7 : staysB ⟨2, .inStr⟩ (('"') :: litObjEnd) = true := by decide
  constructor
  · rw [e1, scanFrom_append, s1, scanFrom_append, s2, scanFrom_append, s3,
      scanFrom_append, s4, scanFrom_append, s5, scanFrom_append, s6, s7]
  · rw [e1, staysB_append]
    refine ⟨t1, ?_⟩
    rw [s1, staysB_append]
    refine ⟨t2, ?_⟩
    rw [s2, staysB_append]
    refine ⟨t3, ?_⟩
    rw [s3, staysB_append]
    refine ⟨t4, ?_⟩
    rw [s4, staysB_append]
    refine ⟨t5, ?_⟩
    rw [s5, staysB_append]
    refine ⟨t6, ?_⟩
    rw [s6]
    exact t7

/-- Scanning the joined elements from depth 1 returns to depth 1 and
stays not good throughout. -/
theorem body_scan : ∀ {ss : List Segment}, wfSegs ss = true → ss ≠ [] →
    scanFrom ⟨1, .normal⟩ (bodyData ss) = ⟨1, .normal⟩ ∧
      staysB ⟨1, .normal⟩ (bodyData ss) = true := by
  intro ss
  induction ss with
  | nil => intro _ hne; exact absurd rfl hne
  | cons s rest ih =>
    intro hwf _
    have hs : wfSeg s = true ∧ wfSegs rest = true := by
      simpa [wfSegs, Bool.and_eq_true] using hwf
    cases rest with
    | nil =>
      rw [show bodyData [s] = chunkData s from rfl]
      exact chunk_scan hs.1
    | cons t rest2 =>
      have hsep1 : scanFrom ⟨1, .normal⟩ litSep = ⟨1, .normal⟩ := by decide
      have hsep2 : staysB ⟨1, .normal⟩ litSep = true := by decide
      obtain ⟨hs1, ht1⟩ := chunk_scan hs.1
      obtain ⟨hs2, ht2⟩ := ih hs.2 (by simp)
      rw [show bodyData (s :: t :: rest2) =
        chunkData s ++ (litSep ++ bodyData (t :: rest2)) from by
          simp [bodyData, List.append_assoc]]
      constructor
      · rw [scanFrom_append, hs1, scanFrom_append, hsep1, hs2]
      · rw [staysB_append]
        refine ⟨ht1, ?_⟩
        rw [hs1, staysB_append]
        refine ⟨hsep2, ?_⟩
        rw [hsep1]
        exact ht2

theorem append_singleton_cases {p t X : List Char} {c : Char}
    (h : p ++ t = X ++ [c]) : p = X ++ [c] ∨ ∃ t2, p ++ t2 = X := by
  rcases List.eq_nil_or_concat t with rfl | ⟨t1, tc, rfl⟩
  · left
    simpa using h
  · right
    rw [List.concat_eq_append, ← List.append_assoc] at h
    have := List.append_inj' h (by simp)
    exact ⟨t1, this.1⟩

/-- Scanning any nonempty proper prefix of a serialized document leaves
the scanner in a not-good state. -/
theorem dumpData_proper_notGood : ∀ {ss : List Segment}, wfSegs ss = true →
    ∀ {p t : List Char}, p ++ t = dumpData ss → p ≠ dumpData ss → p ≠ [] →
    notGoodB (scanFrom ⟨0, .normal⟩ p) = true := by
  intro ss hwf p t hpt hne hnil
  cases ss with
  | nil =>
    cases p with
    | nil => exact absurd rfl hnil
    | cons c p2 =>
      rw [show dumpData [] = ('[') :: (']') :: [] from rfl] at hpt hne
      simp only [List.cons_append] at hpt
      obtain ⟨rfl, hpt2⟩ := List.cons.inj hpt
      cases p2 with
      | nil => decide
      | cons c2 p3 =>
        simp only [List.cons_append] at hpt2
        obtain ⟨rfl, hpt3⟩ := List.cons.inj hpt2
        have h3 : p3 = [] := by
          cases p3 with
          | nil => rfl
          | cons x xs => simp at hpt3
        subst h3
        simp at hne
  | cons s rest =>
    have hbody := body_scan hwf (by simp : (s :: rest) ≠ [])
    have hY : staysB ⟨1, .normal⟩
        (('\n') :: (' ') :: (' ') :: (bodyData (s :: rest) ++ [('\n')])) = true := by
      rw [show ('\n') :: (' ') :: (' ') :: (bodyData (s :: rest) ++ [('\n')]) =
        (('\n') :: (' ') :: (' ') :: []) ++ (bodyData (s :: rest) ++ [('\n')]) from rfl,
        staysB_append]
      refine ⟨by decide, ?_⟩
      rw [show scanFrom ⟨1, .normal⟩ (('\n') :: (' ') :: (' ') :: []) =
        ⟨1, .normal⟩ from by decide, staysB_append]
      refine ⟨hbody.2, ?_⟩
      rw [hbody.1]
      decide
    have hdump2 : dumpData (s :: rest) =
        ('[') :: ('\n') :: (' ') :: (' ') :: (bodyData (s :: rest) ++ [('\n'), (']')]) := by
      rw [show dumpData (s :: rest) = ("[\n  ").data ++ bodyData (s :: rest) ++
        ("\n]").data from rfl]
      simp
    cases p with
    | nil => exact absurd rfl hnil
    | cons c p2 =>
      rw [hdump2] at hpt
      simp only [List.cons_append] at hpt
      obtain ⟨rfl, hpt2⟩ := List.cons.inj hpt
      have hpt3 : p2 ++ t =
          (('\n') :: (' ') :: (' ') :: (bodyData (s :: rest) ++ [('\n')])) ++ [(']')] := by
        rw [hpt2]
        simp
      rcases append_singleton_cases hpt3 with hfull | ⟨t2, hpre⟩
      · refine absurd ?_ hne
        rw [hdump2, hfull]
        simp
      · rw [scanFrom_cons, show scanStep ⟨0, .normal⟩ ('[') = ⟨1, .normal⟩ from by decide]
        exact staysB_states hY p2 t2 hpre

/-- No proper prefix of a serialized document is valid JSON. -/
theorem dump_proper_not_json {ss : List Segment} (hwf : wfSegs ss = true)
    {p t : List Char} (hpt : p ++ t = dumpData ss) (hne : p ≠ dumpData ss) :
    jsonOkL p = false := by
  by_cases hnil : p = []
  · subst hnil
    rfl
  · rcases hcon : jsonOkL p with _ | _
    · rfl
    · have hscan := jsonOkL_scan hcon
      have hbad := dumpData_proper_notGood hwf hpt hne hnil
      rw [hscan] at hbad
      exact absurd hbad (by decide)

theorem skipWs_ws_front {w l : List Char} (h : ∀ c ∈ w, wsChar c = true) :
    skipWs (w ++ l) = skipWs l := by
  induction w with
  | nil => rfl
  | cons c cs ih =>
    rw [List.cons_append, skipWs, if_pos (h c (List.mem_cons_self ..))]
    exact ih fun x hx => h x (List.mem_cons_of_mem _ hx)

theorem skipWs_not_ws {l : List Char} (h : ∀ c, l.head? = some c → wsChar c = false) :
    skipWs l = l := by
  cases l with
  | nil => rfl
  | cons c cs => rw [skipWs, if_neg (by simp [h c rfl])]

theorem ws_not_numChar {c : Char} (h : numChar c = true) : wsChar c = false := by
  rcases hb : wsChar c with _ | _
  · rfl
  · simp only [wsChar, Bool.or_eq_true, decide_eq_true_eq] at hb
    rcases hb with ((rfl | rfl) | rfl) | rfl <;> simp [numChar, Char.isDigit] at h

theorem readNum_eq {a b : List Char} (ha : ∀ c ∈ a, numChar c = true)
    (hb : ∀ c, b.head? = some c → numChar c = false) :
    readNum (a ++ b) = (a, b) := by
  induction a with
  | nil =>
    cases b with
    | nil => rfl
    | cons c r =>
      have := hb c rfl
      simp [readNum, this]
  | cons c a ih =>
    have hc : numChar c = true := ha c (List.mem_cons_self ..)
    have ih' := ih (fun x hx => ha x (List.mem_cons_of_mem _ hx))
    simp [readNum, hc, ih']

theorem readDigits_all {a : List Char} (ha : ∀ c ∈ a, c.isDigit = true) :
    readDigits a = (a, []) := by
  have h2 := readDigits_eq ha (fun c hc => by
    rw [List.head?_nil] at hc
    exact Option.noConfusion hc)
  rwa [List.append_nil] at h2

theorem numOk_numData {q : Rat} (hq : renderableB q = true) :
    numOk (numData q) = true := by
  obtain ⟨k, hk⟩ := Option.isSome_iff_exists.mp hq
  obtain ⟨hkpos, hmod⟩ := pow10Exp_spec hk
  have hpow : (0 : Nat) < 10 ^ k := Nat.pos_pow_of_pos k (by norm_num)
  set N : Nat := q.num.natAbs * (10 ^ k / q.den) with hN
  have hfr : N % 10 ^ k < 10 ^ k := Nat.mod_lt _ hpow
  have hdump : numData q =
      (if q.num < 0 then [('-')] else []) ++
        natToStr (N / 10 ^ k) ++ [('.')] ++ natToStrPad k (N % 10 ^ k) := by
    rw [numData, hk]
  obtain ⟨c, ds, hds⟩ : ∃ c ds, natToStr (N / 10 ^ k) = c :: ds := by
    cases h : natToStr (N / 10 ^ k) with
    | nil => exact absurd h (natToStr_ne_nil _)
    | cons c ds => exact ⟨c, ds, rfl⟩
  have hcd : c.isDigit = true := natToStr_digits c (hds ▸ List.mem_cons_self ..)
  have hrdi : readDigits (natToStr (N / 10 ^ k) ++
      (('.') :: natToStrPad k (N % 10 ^ k))) =
      (natToStr (N / 10 ^ k), ('.') :: natToStrPad k (N % 10 ^ k)) := by
    refine readDigits_eq natToStr_digits ?_
    intro x hx
    simp only [List.head?_cons, Option.some.injEq] at hx
    subst hx
    decide
  have hpadne : natToStrPad k (N % 10 ^ k) ≠ [] := by
    intro hcon
    have := natToStrPad_length hkpos hfr
    rw [hcon] at this
    simp at this
    omega
  have hfracOk : fracOk (('.') :: natToStrPad k (N % 10 ^ k)) = true := by
    unfold fracOk
    simp only [if_true]
    rw [readDigits_all natToStrPad_digits]
    simp [hpadne, expOk]
  by_cases hneg : q.num < 0
  · rw [hdump, if_pos hneg]
    unfold numOk
    simp only [List.cons_append, List.nil_append, List.append_assoc, if_true]
    simp only [List.cons_append] at hrdi ⊢
    rw [hrdi]
    simp only [ne_eq, Bool.and_eq_true, decide_eq_true_eq]
    exact ⟨natToStr_ne_nil _, hfracOk⟩
  · rw [hdump, if_neg hneg]
    unfold numOk
    simp only [List.nil_append, List.append_assoc, hds, List.cons_append]
    rw [if_neg (by rintro rfl; exact absurd hcd (by decide))]
    rw [← List.cons_append, ← hds, hrdi]
    simp only [ne_eq, Bool.and_eq_true, decide_eq_true_eq]
    exact ⟨natToStr_ne_nil _, hfracOk⟩

theorem parseNumber_numData {q : Rat} (hq : renderableB q = true) {rest : List Char}
    (hrest : ∀ c, rest.head? = some c → numChar c = false) :
    parseNumber (numData q ++ rest) = some rest := by
  unfold parseNumber
  rw [readNum_eq (numData_chars q) hrest]
  simp [numOk_numData hq]

theorem parseStrRest_plain {a : List Char} (ha : ∀ c ∈ a, plainChar c = true)
    (rest : List Char) : parseStrRest (a ++ ('"') :: rest) = some rest := by
  induction a with
  | nil =>
    rw [List.nil_append]
    unfold parseStrRest
    rw [if_pos rfl]
  | cons c a ih =>
    obtain ⟨h1, h2⟩ := plainChar_spec (ha c (List.mem_cons_self ..))
    rw [List.cons_append]
    unfold parseStrRest
    rw [if_neg h1, if_neg h2]
    exact ih fun x hx => ha x (List.mem_cons_of_mem _ hx)

theorem parseVal_str {a : List Char} (ha : ∀ c ∈ a, plainChar c = true)
    (rest : List Char) (f : Nat) :
    parseVal (f + 1) (('"') :: (a ++ ('"') :: rest)) = some rest := by
  rw [parseVal_cons, if_pos rfl, parseStrRest_plain ha]

theorem digit_ne_keys {c : Char} (h : c.isDigit = true) :
    c ≠ '"' ∧ c ≠ '[' ∧ c ≠ '\x7b' ∧ c ≠ 't' ∧ c ≠ 'f' ∧ c ≠ 'n' ∧
      c ≠ 'I' ∧ c ≠ 'N' ∧ c ≠ '-' := by
  refine ⟨?_, ?_, ?_, ?_, ?_, ?_, ?_, ?_, ?_⟩ <;> · rintro rfl; exact absurd h (by decide)

theorem parseVal_num {q : Rat} (hq : renderableB q = true) {rest : List Char}
    (hrest : ∀ c, rest.head? = some c → numChar c = false) (f : Nat) :
    parseVal (f + 1) (numData q ++ rest) = some rest := by
  obtain ⟨k, hk⟩ := Option.isSome_iff_exists.mp hq
  set N : Nat := q.num.natAbs * (10 ^ k / q.den) with hN
  have hdump : numData q =
      (if q.num < 0 then [('-')] else []) ++
        natToStr (N / 10 ^ k) ++ [('.')] ++ natToStrPad k (N % 10 ^ k) := by
    rw [numData, hk]
  obtain ⟨c, ds, hds⟩ : ∃ c ds, natToStr (N / 10 ^ k) = c :: ds := by
    cases h : natToStr (N / 10 ^ k) with
    | nil => exact absurd h (natToStr_ne_nil _)
    | cons c ds => exact ⟨c, ds, rfl⟩
  have hcd : c.isDigit = true := natToStr_digits c (hds ▸ List.mem_cons_self ..)
  by_cases hneg : q.num < 0
  · have hshape : numData q ++ rest =
        ('-') :: (c :: (ds ++ ('.') :: (natToStrPad k (N % 10 ^ k) ++ rest))) := by
      rw [hdump, if_pos hneg, hds]
      simp
    rw [hshape, parseVal_cons]
    rw [if_neg (by decide), if_neg (by decide), if_neg (by decide), if_neg (by decide),
      if_neg (by decide), if_neg (by decide), if_neg (by decide), if_neg (by decide),
      if_pos rfl]
    split
    · rename_i r2 heq
      have := (List.cons.inj heq).1
      subst this
      exact absurd hcd (by decide)
    · rw [show ('-') :: (c :: (ds ++ ('.') :: (natToStrPad k (N % 10 ^ k) ++ rest))) =
        numData q ++ rest from hshape.symm]
      exact parseNumber_numData hq hrest
  · have hshape : numData q ++ rest =
        c :: (ds ++ ('.') :: (natToStrPad k (N % 10 ^ k) ++ rest)) := by
      rw [hdump, if_neg hneg, hds]
      simp
    obtain ⟨k1, k2, k3, k4, k5, k6, k7, k8, k9⟩ := digit_ne_keys hcd
    rw [hshape, parseVal_cons, if_neg k1, if_neg k2, if_neg k3, if_neg k4, if_neg k5,
      if_neg k6, if_neg k7, if_neg k8, if_neg k9]
    rw [show c :: (ds ++ ('.') :: (natToStrPad k (N % 10 ^ k) ++ rest)) =
      numData q ++ rest from hshape.symm]
    exact parseNumber_numData hq hrest

theorem skipWs_cons_ws {c : Char} (h : wsChar c = true) (l : List Char) :
    skipWs (c :: l) = skipWs l := by
  rw [skipWs, if_pos h]

theorem skipWs_cons_not {c : Char} (h : wsChar c = false) (l : List Char) :
    skipWs (c :: l) = c :: l := by
  rw [skipWs, if_neg (by simp [h])]

theorem numData_ne_nil (q : Rat) : numData q ≠ [] := by
  unfold numData
  split
  · decide
  · simp

theorem numData_head_not_ws (q : Rat) (l : List Char) :
    ∀ c, ((numData q ++ l).head?) = some c → wsChar c = false := by
  intro c hc
  cases hnd : numData q with
  | nil => exact absurd hnd (numData_ne_nil q)
  | cons c0 ds =>
    rw [hnd, List.cons_append, List.head?_cons] at hc
    obtain rfl := Option.some.inj hc
    refine ws_not_numChar (numData_chars q c0 ?_)
    rw [hnd]
    exact List.mem_cons_self ..

theorem head_litEnd2_not_num (w : List Char) :
    ∀ c, ((litEnd2 ++ w).head?) = some c → numChar c = false := by
  intro c hc
  have h0 : ((litEnd2 ++ w).head?) = some (',') := rfl
  rw [h0] at hc
  obtain rfl := Option.some.inj hc
  decide

theorem head_litSpk_not_num (w : List Char) :
    ∀ c, ((litSpk ++ w).head?) = some c → numChar c = false := by
  intro c hc
  have h0 : ((litSpk ++ w).head?) = some (',') := rfl
  rw [h0] at hc
  obtain rfl := Option.some.inj hc
  decide

/-- The generic acceptor consumes one serialized element. -/
theorem parseVal_chunk {s : Segment} (h : wfSeg s = true) (rest : List Char) (m : Nat) :
    parseVal (m + 6) (chunkData s ++ rest) = some rest := by
  have hparts : renderableB s.start = true ∧ renderableB s.stop = true ∧
      s.speaker.data.all plainChar = true := by
    simpa [wfSeg, Bool.and_eq_true, and_assoc] using h
  have hplain : ∀ c ∈ s.speaker.data, plainChar c = true := by
    simpa [List.all_eq_true] using hparts.2.2
  -- speaker value stream
  have hv3 : parseVal (m + 2) (skipWs ((' ') :: (('"') ::
      (s.speaker.data ++ ('"') :: (litObjEnd ++ rest))))) = some (litObjEnd ++ rest) := by
    rw [skipWs_cons_ws (by decide), skipWs_cons_not (by decide),
      show m + 2 = (m + 1) + 1 from rfl]
    exact parseVal_str hplain _ _
  -- "speaker" member
  have hm3 : parseMembers (m + 3) (('"') :: (("speaker").data ++ ('"') :: (':') :: (' ') ::
      (('"') :: (s.speaker.data ++ ('"') :: (litObjEnd ++ rest))))) = some rest := by
    rw [show m + 3 = (m + 2) + 1 from rfl, parseMembers_succ]
    simp only []
    rw [parseStrRest_plain (by decide)]
    simp only []
    rw [skipWs_cons_not (by decide)]
    simp only []
    rw [hv3]
    simp only []
    rw [show litObjEnd ++ rest = ('\n') :: (' ') :: (' ') :: (('\x7d') :: rest) from rfl,
      skipWs_cons_ws (by decide), skipWs_cons_ws (by decide), skipWs_cons_ws (by decide),
      skipWs_cons_not (by decide)]
    rfl
  -- "end" member
  have hm2 : parseMembers (m + 4) (('"') :: (("end").data ++ ('"') :: (':') :: (' ') ::
      (numData s.stop ++ (litSpk ++ (s.speaker.data ++ ('"') :: (litObjEnd ++ rest)))))) =
      some rest := by
    rw [show m + 4 = (m + 3) + 1 from rfl, parseMembers_succ]
    simp only []
    rw [parseStrRest_plain (by decide)]
    simp only []
    rw [skipWs_cons_not (by decide)]
    simp only []
    rw [skipWs_cons_ws (by decide), skipWs_not_ws (numData_head_not_ws _ _),
      show m + 3 = (m + 2) + 1 from rfl,
      parseVal_num hparts.2.1 (head_litSpk_not_num _) (m + 2)]
    simp only []
    rw [show litSpk ++ (s.speaker.data ++ ('"') :: (litObjEnd ++ rest)) =
      (',') :: (("\n    ").data ++ (('"') :: (("speaker").data ++ ('"') :: (':') :: (' ') ::
        (('"') :: (s.speaker.data ++ ('"') :: (litObjEnd ++ rest)))))) from rfl,
      skipWs_cons_not (by decide)]
    simp only []
    rw [skipWs_ws_front (by decide), skipWs_cons_not (by decide)]
    exact hm3
  -- "start" member
  have hm1 : parseMembers (m + 5) (('"') :: (("start").data ++ ('"') :: (':') :: (' ') ::
      (numData s.start ++ (litEnd2 ++ (numData s.stop ++ (litSpk ++
        (s.speaker.data ++ ('"') :: (litObjEnd ++ rest)))))))) = some rest := by
    rw [show m + 5 = (m + 4) + 1 from rfl, parseMembers_succ]
    simp only []
    rw [parseStrRest_plain (by decide)]
    simp only []
    rw [skipWs_cons_not (by decide)]
    simp only []
    rw [skipWs_cons_ws (by decide), skipWs_not_ws (numData_head_not_ws _ _),
      show m + 4 = (m + 3) + 1 from rfl,
      parseVal_num hparts.1 (head_litEnd2_not_num _) (m + 3)]
    simp only []
    rw [show litEnd2 ++ (numData s.stop ++ (litSpk ++ (s.speaker.data ++ ('"') ::
        (litObjEnd ++ rest)))) =
      (',') :: (("\n    ").data ++ (('"') :: (("end").data ++ ('"') :: (':') :: (' ') ::
        (numData s.stop ++ (litSpk ++ (s.speaker.data ++ ('"') ::
          (litObjEnd ++ rest))))))) from rfl,
      skipWs_cons_not (by decide)]
    simp only []
    rw [skipWs_ws_front (by decide), skipWs_cons_not (by decide)]
    exact hm2
  -- the element object
  have e0 : chunkData s ++ rest = litStart ++ (numData s.start ++ (litEnd2 ++
      (numData s.stop ++ (litSpk ++ (s.speaker.data ++ ('"') ::
        (litObjEnd ++ rest)))))) := by
    simp [chunkData, List.append_assoc]
  rw [e0, show litStart ++ (numData s.start ++ (litEnd2 ++ (numData s.stop ++ (litSpk ++
      (s.speaker.data ++ ('"') :: (litObjEnd ++ rest)))))) =
    ('\x7b') :: (("\n    ").data ++ (('"') :: (("start").data ++ ('"') :: (':') :: (' ') ::
      (numData s.start ++ (litEnd2 ++ (numData s.stop ++ (litSpk ++
        (s.speaker.data ++ ('"') :: (litObjEnd ++ rest))))))))) from rfl,
    show m + 6 = (m + 5) + 1 from rfl, parseVal_cons,
    if_neg (by decide), if_neg (by decide), if_pos rfl]
  rw [skipWs_ws_front (by decide), skipWs_cons_not (by decide)]
  simp only []
  exact hm1

theorem bodyData_head (s : Segment) (rest : List Segment) (l : List Char) :
    ((bodyData (s :: rest) ++ l).head?) = some ('\x7b') := by
  cases rest with
  | nil => rfl
  | cons t r2 => rfl

theorem parseElems_body : ∀ (ss : List Segment) (f : Nat) (rest : List Char),
    wfSegs ss = true → ss ≠ [] →
    parseElems (ss.length + 6 + f) (bodyData ss ++ ('\n') :: (']') :: rest) = some rest := by
  intro ss
  induction ss with
  | nil => intro f rest _ hne; exact absurd rfl hne
  | cons s rest2 ih =>
    intro f rest hwf _
    have hs : wfSeg s = true ∧ wfSegs rest2 = true := by
      simpa [wfSegs, Bool.and_eq_true] using hwf
    cases rest2 with
    | nil =>
      rw [show ([s] : List Segment).length + 6 + f = ((f + 6) + 1) from by
          simp only [List.length_singleton]; omega,
        parseElems_succ,
        show bodyData [s] ++ ('\n') :: (']') :: rest =
          chunkData s ++ (('\n') :: (']') :: rest) from rfl,
        parseVal_chunk hs.1]
      simp only []
      rw [skipWs_cons_ws (by decide), skipWs_cons_not (by decide)]
      rfl
    | cons t rest3 =>
      have hchunk : parseVal ((t :: rest3).length + 6 + f)
          (chunkData s ++ (litSep ++ (bodyData (t :: rest3) ++ ('\n') :: (']') :: rest))) =
          some (litSep ++ (bodyData (t :: rest3) ++ ('\n') :: (']') :: rest)) := by
        rw [show (t :: rest3).length + 6 + f = ((t :: rest3).length + f) + 6 from by omega]
        exact parseVal_chunk hs.1 _ _
      rw [show (s :: t :: rest3).length + 6 + f =
          (((t :: rest3).length + 6 + f) + 1) from by
          simp only [List.length_cons]; omega,
        parseElems_succ,
        show bodyData (s :: t :: rest3) ++ ('\n') :: (']') :: rest =
          chunkData s ++ (litSep ++ (bodyData (t :: rest3) ++ ('\n') :: (']') :: rest))
          from by simp [bodyData, List.append_assoc],
        hchunk]
      simp only []
      rw [show litSep ++ (bodyData (t :: rest3) ++ ('\n') :: (']') :: rest) =
          (',') :: (('\n') :: (' ') :: (' ') ::
            (bodyData (t :: rest3) ++ ('\n') :: (']') :: rest)) from rfl,
        skipWs_cons_not (by decide)]
      simp only []
      rw [skipWs_cons_ws (by decide), skipWs_cons_ws (by decide),
        skipWs_cons_ws (by decide),
        skipWs_not_ws (fun c hc => by
          rw [bodyData_head t rest3] at hc
          obtain rfl := Option.some.inj hc
          decide)]
      exact ih f rest hs.2 (by simp)

/-- The serialized document is valid JSON. -/
theorem jsonOkL_dump {ss : List Segment} (hwf : wfSegs ss = true) :
    jsonOkL (dumpData ss) = true := by
  cases ss with
  | nil => decide
  | cons s rest =>
    have hdump2 : dumpData (s :: rest) =
        ('[') :: ('\n') :: (' ') :: (' ') ::
          (bodyData (s :: rest) ++ ('\n') :: (']') :: []) := by
      rw [show dumpData (s :: rest) = ("[\n  ").data ++ bodyData (s :: rest) ++
        ("\n]").data from rfl]
      simp
    have hlen := bodyData_len (s :: rest)
    have hlen6 : (dumpData (s :: rest)).length + 1 =
        ((bodyData (s :: rest)).length + 6) + 1 := by
      rw [hdump2]
      simp only [List.length_cons, List.length_append, List.length_nil]
    have hp : parseVal ((dumpData (s :: rest)).length + 1) (dumpData (s :: rest)) =
        some [] := by
      rw [hlen6, hdump2]
      rw [parseVal_cons, if_neg (by decide), if_pos rfl]
      rw [skipWs_cons_ws (by decide), skipWs_cons_ws (by decide),
        skipWs_cons_ws (by decide),
        skipWs_not_ws (fun c hc => by
          rw [bodyData_head s rest] at hc
          obtain rfl := Option.some.inj hc
          decide)]
      split
      · rename_i r2 heq
        have hh := bodyData_head s rest (('\n') :: (']') :: [])
        rw [heq, List.head?_cons] at hh
        exact absurd (Option.some.inj hh) (by decide)
      · rw [show (bodyData (s :: rest)).length + 6 =
          (s :: rest).length + 6 + ((bodyData (s :: rest)).length - (s :: rest).length)
          from by simp only [List.length_cons] at hlen ⊢; omega]
        exact parseElems_body (s :: rest) _ [] hwf (by simp)
    unfold jsonOkL
    rw [show skipWs (dumpData (s :: rest)) = dumpData (s :: rest) from by
      rw [hdump2]
      exact skipWs_cons_not (by decide) _]
    rw [hp]
    simp [skipWs]

/-! ### The runner

`run` below is `diarize_audio(audio_file, output_file)` together with the
process environment: the outcome of each external call
(`Pipeline.from_pretrained`, `pipeline(audio_file)` with its
`itertracks` iteration, and the file write) is an input, and the
observable behaviour — stdout lines, exit status, file-system effect,
the value passed as `use_auth_token`, and the order of the steps
reached — is the output.  An uncaught Python exception terminates the
process with exit status 1; a write that fails leaves a strict prefix
of the serialized document in the (truncated) file, since the failing
write call wrote none of its own bytes. -/

/-- Outcome of the `open`/`json.dump` block, an input of the model. -/
inductive WriteBehavior
  | succeeds
  | openFails
  | failsAfter (n : Nat)
  deriving DecidableEq

/-- One invocation's inputs: CLI arguments, environment, and the
behaviour of the external pipeline and file system. -/
structure RunInput where
  audio : String
  output : String
  envToken : Option String
  fromPretrained : Except String Unit
  inference : Except String (List Triple)
  writeBeh : WriteBehavior

/-- The steps of `diarize_audio`, in source order. -/
inductive Ev
  | printStart
  | warnTok
  | loadPipeline
  | runInference
  | openOutput
  | writeOutput
  | closeOutput
  | printDone
  deriving DecidableEq

/-- Observable behaviour of one invocation. -/
structure RunResult where
  fs : String → Option String
  stdout : List String
  exitCode : Nat
  events : List Ev
  tokenPassed : Option String
  written : Option String

/-- Python truthiness of `access_token` in `if not access_token`. -/
def tokenFalsy : Option String → Bool
  | none => true
  | some s => s == ("")

/-- The two warning lines printed when the token is falsy. -/
def warnLines : List String :=
  [("WARNING: HUGGINGFACE_TOKEN not set in environment. Diarization may fail."),
   ("Please set the HUGGINGFACE_TOKEN environment variable with a valid HuggingFace token.")]

/-- Writing one file into the file-system map. -/
def setFile (fs : String → Option String) (p c : String) : String → Option String :=
  fun q => if q = p then some c else fs q

/-- `diarize_audio(audio, output)` in environment `inp`, starting from
file system `fs0`. -/
def run (inp : RunInput) (fs0 : String → Option String) : RunResult :=
  let startLine := ("Starting diarization for ") ++ inp.audio
  let access_token := inp.envToken
  let out1 := [startLine] ++ (if tokenFalsy access_token then warnLines else [])
  let ev1 := [Ev.printStart] ++ (if tokenFalsy access_token then [Ev.warnTok] else [])
  match inp.fromPretrained with
  | .error _ =>
    ⟨fs0, out1, 1, ev1 ++ [Ev.loadPipeline], access_token, none⟩
  | .ok _ =>
    match inp.inference with
    | .error _ =>
      ⟨fs0, out1, 1, ev1 ++ [Ev.loadPipeline, Ev.runInference], access_token, none⟩
    | .ok ts =>
      let segments := toSegments ts
      match inp.writeBeh with
      | .openFails =>
        ⟨fs0, out1, 1, ev1 ++ [Ev.loadPipeline, Ev.runInference], access_token, none⟩
      | .failsAfter n =>
        let partContent :=
          String.mk ((dumpData segments).take (min n ((dumpData segments).length - 1)))
        ⟨setFile fs0 inp.output partContent, out1, 1,
          ev1 ++ [Ev.loadPipeline, Ev.runInference, Ev.openOutput, Ev.writeOutput],
          access_token, some partContent⟩
      | .succeeds =>
        let doneLine := ("Diarization complete. Found ") ++ toString segments.length ++
          (" speaker segments.")
        let savedLine := ("Results saved to ") ++ inp.output
        ⟨setFile fs0 inp.output (dumpSegments segments),
          out1 ++ [doneLine, savedLine], 0,
          ev1 ++ [Ev.loadPipeline, Ev.runInference, Ev.openOutput, Ev.writeOutput,
            Ev.closeOutput, Ev.printDone],
          access_token, some (dumpSegments segments)⟩

/-- Checks that every occurrence of `a` is preceded by an occurrence of
`b` (given whether `b` has been seen already). -/
def okOrder (b a : Ev) : Bool → List Ev → Bool
  | _, [] => true
  | seen, c :: cs => (decide (c ≠ a) || seen) && okOrder b a (seen || decide (c = b)) cs

theorem okOrder_spec {b a : Ev} : ∀ (l : List Ev) (seen : Bool),
    okOrder b a seen l = true →
    ∀ l1 l2, l = l1 ++ a :: l2 → seen = true ∨ b ∈ l1 := by
  intro l
  induction l with
  | nil =>
    intro seen _ l1 l2 hl
    exact absurd hl (by simp)
  | cons c cs ih =>
    intro seen h l1 l2 hl
    simp only [okOrder, Bool.and_eq_true, Bool.or_eq_true, decide_eq_true_eq] at h
    cases l1 with
    | nil =>
      simp only [List.nil_append] at hl
      obtain ⟨rfl, rfl⟩ := List.cons.inj hl
      rcases h.1 with hne | hseen
      · exact absurd rfl hne
      · exact Or.inl hseen
    | cons c1 l1b =>
      simp only [List.cons_append] at hl
      obtain ⟨rfl, hl2⟩ := List.cons.inj hl
      rcases ih _ h.2 l1b l2 hl2 with hs | hb
      · simp only [Bool.or_eq_true, decide_eq_true_eq] at hs
        rcases hs with hs | rfl
        · exact Or.inl hs
        · exact Or.inr (List.mem_cons_self ..)
      · exact Or.inr (List.mem_cons_of_mem _ hb)

theorem okOrder_before (b a : Ev) {l : List Ev} (h : okOrder b a false l = true) :
    ∀ l1 l2, l = l1 ++ a :: l2 → b ∈ l1 := by
  intro l1 l2 hl
  rcases okOrder_spec l false h l1 l2 hl with hs | hb
  · exact absurd hs (by simp)
  · exact hb

theorem dumpData_length_pos (ss : List Segment) : 1 ≤ (dumpData ss).length := by
  cases ss with
  | nil => decide
  | cons s rest =>
    rw [show dumpData (s :: rest) = ("[\n  ").data ++ bodyData (s :: rest) ++
      ("\n]").data from rfl]
    simp [List.length_append]

/-! ### The claims -/

/-- C1: the i-th element of the output segment list is constructed from
the i-th yielded (interval, track, label) triple in yield order, with
`start` and `end` copied verbatim from the interval (no validation,
sorting, or correction, so `end >= start` holds in the output exactly
when it holds in the input) and `speaker` equal to `"SPEAKER_"`
concatenated with the yielded label. -/
theorem segment_i_from_triple_i (ts : List Triple) (i : Nat) (t : Triple)
    (h : ts[i]? = some t) :
    ∃ sg : Segment, (toSegments ts)[i]? = some sg ∧
      sg.start = t.turn.start ∧ sg.stop = t.turn.stop ∧
      sg.speaker = ("SPEAKER_") ++ t.speaker ∧
      (sg.start ≤ sg.stop ↔ t.turn.start ≤ t.turn.stop) := by
  refine ⟨Segment.mk (t.turn.start) (t.turn.stop) (("SPEAKER_") ++ t.speaker),
    ?_, rfl, rfl, rfl, Iff.rfl⟩
  simp [toSegments, List.getElem?_map, h]

theorem segment_i_from_triple_i_witness :
    (([Triple.mk (Turn.mk 0 1) ("0") ("A")] : List Triple)[0]? =
        some (Triple.mk (Turn.mk 0 1) ("0") ("A"))) ∧
      ∃ sg : Segment, (toSegments [Triple.mk (Turn.mk 0 1) ("0") ("A")])[0]? = some sg ∧
        sg.start = (Turn.mk 0 1).start ∧ sg.stop = (Turn.mk 0 1).stop ∧
        sg.speaker = ("SPEAKER_") ++ ("A") ∧
        (sg.start ≤ sg.stop ↔ (Turn.mk 0 1).start ≤ (Turn.mk 0 1).stop) :=
  ⟨rfl, segment_i_from_triple_i [Triple.mk (Turn.mk 0 1) ("0") ("A")] 0
    (Triple.mk (Turn.mk 0 1) ("0") ("A")) rfl⟩

/-- C6: the bytes written to the output file are valid JSON, and parsing
them back yields a list structurally identical to the segment list that
was serialized (write-then-read round-trip is the identity, including
exact float values). -/
theorem dump_load_round_trip (segs : List Segment) (h : wfSegs segs = true) :
    jsonOk (dumpSegments segs) = true ∧
      loadSegments (dumpSegments segs) = some segs := by
  constructor
  · show jsonOkL (dumpData segs) = true
    exact jsonOkL_dump h
  · exact loadSegments_dump h

theorem dump_load_round_trip_witness :
    wfSegs [Segment.mk 0 0 ("SPEAKER_A")] = true ∧
      (jsonOk (dumpSegments [Segment.mk 0 0 ("SPEAKER_A")]) = true ∧
        loadSegments (dumpSegments [Segment.mk 0 0 ("SPEAKER_A")]) =
          some [Segment.mk 0 0 ("SPEAKER_A")]) :=
  ⟨by decide, dump_load_round_trip [Segment.mk 0 0 ("SPEAKER_A")] (by decide)⟩

/-- C2: for every pipeline result containing exactly N triples, the JSON
array written to the output file has exactly N elements, and every
element's `speaker` field starts with the prefix `SPEAKER_`. -/
theorem output_array_matches_triples (inp : RunInput) (fs0 : String → Option String)
    (ts : List Triple) (hfp : inp.fromPretrained = Except.ok ())
    (hinf : inp.inference = Except.ok ts) (hwb : inp.writeBeh = WriteBehavior.succeeds)
    (hwf : wfTriples ts = true) :
    (run inp fs0).fs inp.output = some (dumpSegments (toSegments ts)) ∧
      loadSegments (dumpSegments (toSegments ts)) = some (toSegments ts) ∧
      (toSegments ts).length = ts.length ∧
      ∀ sg ∈ toSegments ts, ∃ lab, sg.speaker = ("SPEAKER_") ++ lab := by
  refine ⟨?_, loadSegments_dump (wfSegs_toSegments hwf), toSegments_length ts, ?_⟩
  · simp only [run, hfp, hinf, hwb]
    simp [setFile]
  · intro sg hsg
    simp only [toSegments, List.mem_map] at hsg
    obtain ⟨t, ht, rfl⟩ := hsg
    exact ⟨t.speaker, rfl⟩

theorem output_array_matches_triples_witness :
    ((RunInput.mk ("a.wav") ("out.json") (some ("t")) (Except.ok ())
        (Except.ok [Triple.mk (Turn.mk 0 1) ("0") ("A")])
        WriteBehavior.succeeds).fromPretrained = Except.ok () ∧
      wfTriples [Triple.mk (Turn.mk 0 1) ("0") ("A")] = true) ∧
      ((run (RunInput.mk ("a.wav") ("out.json") (some ("t")) (Except.ok ())
          (Except.ok [Triple.mk (Turn.mk 0 1) ("0") ("A")]) WriteBehavior.succeeds)
          (fun _ => none)).fs ("out.json") =
        some (dumpSegments (toSegments [Triple.mk (Turn.mk 0 1) ("0") ("A")])) ∧
      loadSegments (dumpSegments (toSegments [Triple.mk (Turn.mk 0 1) ("0") ("A")])) =
        some (toSegments [Triple.mk (Turn.mk 0 1) ("0") ("A")]) ∧
      (toSegments [Triple.mk (Turn.mk 0 1) ("0") ("A")]).length =
        [Triple.mk (Turn.mk 0 1) ("0") ("A")].length ∧
      ∀ sg ∈ toSegments [Triple.mk (Turn.mk 0 1) ("0") ("A")],
        ∃ lab, sg.speaker = ("SPEAKER_") ++ lab) :=
  ⟨⟨rfl, by decide⟩,
    output_array_matches_triples
      (RunInput.mk ("a.wav") ("out.json") (some ("t")) (Except.ok ())
        (Except.ok [Triple.mk (Turn.mk 0 1) ("0") ("A")]) WriteBehavior.succeeds)
      (fun _ => none) [Triple.mk (Turn.mk 0 1) ("0") ("A")] rfl rfl rfl (by decide)⟩

/-- C7: on every successful run, exactly one output file is written
(created, or truncated and overwritten if it already exists), containing
a JSON top-level array with 2-space indentation whose elements each have
exactly the keys `start`, `end` and `speaker` in that order (this is the
only document shape `loadSegments` accepts), with `speaker` of the form
`SPEAKER_<label>` and no trailing metadata or schema-version field. -/
theorem success_writes_one_file (inp : RunInput) (fs0 : String → Option String)
    (ts : List Triple) (hfp : inp.fromPretrained = Except.ok ())
    (hinf : inp.inference = Except.ok ts) (hwb : inp.writeBeh = WriteBehavior.succeeds)
    (hwf : wfTriples ts = true) :
    (run inp fs0).fs inp.output = some (dumpSegments (toSegments ts)) ∧
      (∀ p, p ≠ inp.output → (run inp fs0).fs p = fs0 p) ∧
      jsonOk (dumpSegments (toSegments ts)) = true ∧
      loadSegments (dumpSegments (toSegments ts)) = some (toSegments ts) ∧
      ∀ sg ∈ toSegments ts, ∃ lab, sg.speaker = ("SPEAKER_") ++ lab := by
  refine ⟨?_, ?_, jsonOkL_dump (wfSegs_toSegments hwf),
    loadSegments_dump (wfSegs_toSegments hwf), ?_⟩
  · simp only [run, hfp, hinf, hwb]
    simp [setFile]
  · intro p hp
    simp only [run, hfp, hinf, hwb]
    simp [setFile, hp]
  · intro sg hsg
    simp only [toSegments, List.mem_map] at hsg
    obtain ⟨t, ht, rfl⟩ := hsg
    exact ⟨t.speaker, rfl⟩

theorem success_writes_one_file_witness :
    wfTriples [Triple.mk (Turn.mk 0 1) ("0") ("A")] = true ∧
      ((run (RunInput.mk ("a.wav") ("out.json") none (Except.ok ())
          (Except.ok [Triple.mk (Turn.mk 0 1) ("0") ("A")]) WriteBehavior.succeeds)
          (fun _ => some ("stale"))).fs ("out.json") =
        some (dumpSegments (toSegments [Triple.mk (Turn.mk 0 1) ("0") ("A")])) ∧
      (∀ p, p ≠ ("out.json") →
        (run (RunInput.mk ("a.wav") ("out.json") none (Except.ok ())
          (Except.ok [Triple.mk (Turn.mk 0 1) ("0") ("A")]) WriteBehavior.succeeds)
          (fun _ => some ("stale"))).fs p = some ("stale")) ∧
      jsonOk (dumpSegments (toSegments [Triple.mk (Turn.mk 0 1) ("0") ("A")])) = true ∧
      loadSegments (dumpSegments (toSegments [Triple.mk (Turn.mk 0 1) ("0") ("A")])) =
        some (toSegments [Triple.mk (Turn.mk 0 1) ("0") ("A")]) ∧
      ∀ sg ∈ toSegments [Triple.mk (Turn.mk 0 1) ("0") ("A")],
        ∃ lab, sg.speaker = ("SPEAKER_") ++ lab) :=
  ⟨by decide,
    success_writes_one_file
      (RunInput.mk ("a.wav") ("out.json") none (Except.ok ())
        (Except.ok [Triple.mk (Turn.mk 0 1) ("0") ("A")]) WriteBehavior.succeeds)
      (fun _ => some ("stale")) [Triple.mk (Turn.mk 0 1) ("0") ("A")] rfl rfl rfl
      (by decide)⟩

/-- C3: if any step before or during serialization fails (pipeline
construction, inference, or the write itself), the run leaves either no
output file or the previous file's stale content, never a partially
written file that parses as valid JSON; and the output file is only
opened after the pipeline has run and the segments are collected
(`openOutput` occurs in the event list only after `runInference` and
`loadPipeline`). -/
theorem failure_leaves_no_valid_json (inp : RunInput) (fs0 : String → Option String) :
    ((∃ e, inp.fromPretrained = Except.error e) → ∀ p, (run inp fs0).fs p = fs0 p) ∧
      ((∃ e, inp.inference = Except.error e) → ∀ p, (run inp fs0).fs p = fs0 p) ∧
      (inp.writeBeh = WriteBehavior.openFails → ∀ p, (run inp fs0).fs p = fs0 p) ∧
      (∀ n ts, inp.fromPretrained = Except.ok () → inp.inference = Except.ok ts →
        inp.writeBeh = WriteBehavior.failsAfter n → wfTriples ts = true →
        ∃ c, (run inp fs0).written = some c ∧ (run inp fs0).fs inp.output = some c ∧
          jsonOk c = false) ∧
      (∀ l1 l2, (run inp fs0).events = l1 ++ Ev.openOutput :: l2 →
        Ev.runInference ∈ l1 ∧ Ev.loadPipeline ∈ l1) := by
  refine ⟨?_, ?_, ?_, ?_, ?_⟩
  · rintro ⟨e, he⟩ p
    simp only [run, he]
  · rintro ⟨e, he⟩ p
    rcases hfp : inp.fromPretrained with e2 | u
    · simp only [run, hfp]
    · cases u
      simp only [run, hfp, he]
  · intro hwb p
    rcases hfp : inp.fromPretrained with e2 | u
    · simp only [run, hfp]
    · cases u
      rcases hinf : inp.inference with e3 | ts
      · simp only [run, hfp, hinf]
      · simp only [run, hfp, hinf, hwb]
  · intro n ts hfp hinf hwb hwf
    have hwfs : wfSegs (toSegments ts) = true := wfSegs_toSegments hwf
    have hlen1 := dumpData_length_pos (toSegments ts)
    have hmle : min n ((dumpData (toSegments ts)).length - 1) ≤
        (dumpData (toSegments ts)).length - 1 := Nat.min_le_right ..
    have hm : min n ((dumpData (toSegments ts)).length - 1) <
        (dumpData (toSegments ts)).length := by omega
    have hne : (dumpData (toSegments ts)).take
        (min n ((dumpData (toSegments ts)).length - 1)) ≠ dumpData (toSegments ts) := by
      intro heq
      have hl := congrArg List.length heq
      rw [List.length_take, Nat.min_eq_left (le_of_lt hm)] at hl
      omega
    have hjson : jsonOkL ((dumpData (toSegments ts)).take
        (min n ((dumpData (toSegments ts)).length - 1))) = false :=
      dump_proper_not_json hwfs (List.take_append_drop ..) hne
    refine ⟨String.mk ((dumpData (toSegments ts)).take
      (min n ((dumpData (toSegments ts)).length - 1))), ?_, ?_, hjson⟩
    · simp only [run, hfp, hinf, hwb]
    · simp only [run, hfp, hinf, hwb]
      simp [setFile]
  · intro l1 l2 hev
    rcases hfp : inp.fromPretrained with e | u
    · exfalso
      have hmem : Ev.openOutput ∈ l1 ++ Ev.openOutput :: l2 :=
        List.mem_append_right _ (List.mem_cons_self ..)
      rw [← hev] at hmem
      rcases hb : tokenFalsy inp.envToken with _ | _ <;>
        simp [run, hfp, hb, warnLines] at hmem
    · cases u
      rcases hinf : inp.inference with e2 | ts
      · exfalso
        have hmem : Ev.openOutput ∈ l1 ++ Ev.openOutput :: l2 :=
          List.mem_append_right _ (List.mem_cons_self ..)
        rw [← hev] at hmem
        rcases hb : tokenFalsy inp.envToken with _ | _ <;>
          simp [run, hfp, hinf, hb, warnLines] at hmem
      · rcases hwb : inp.writeBeh with _ | _ | n
        · rcases hb : tokenFalsy inp.envToken with _ | _ <;>
            simp only [run, hfp, hinf, hwb, hb, if_true, if_false] at hev <;>
            simp only [List.nil_append, List.cons_append, List.append_nil] at hev
          · exact ⟨okOrder_before Ev.runInference Ev.openOutput (by decide) l1 l2 hev,
              okOrder_before Ev.loadPipeline Ev.openOutput (by decide) l1 l2 hev⟩
          · exact ⟨okOrder_before Ev.runInference Ev.openOutput (by decide) l1 l2 hev,
              okOrder_before Ev.loadPipeline Ev.openOutput (by decide) l1 l2 hev⟩
        · exfalso
          have hmem : Ev.openOutput ∈ l1 ++ Ev.openOutput :: l2 :=
            List.mem_append_right _ (List.mem_cons_self ..)
          rw [← hev] at hmem
          rcases hb : tokenFalsy inp.envToken with _ | _ <;>
            simp [run, hfp, hinf, hwb, hb, warnLines] at hmem
        · rcases hb : tokenFalsy inp.envToken with _ | _ <;>
            simp only [run, hfp, hinf, hwb, hb, if_true, if_false] at hev <;>
            simp only [List.nil_append, List.cons_append, List.append_nil] at hev
          · exact ⟨okOrder_before Ev.runInference Ev.openOutput (by decide) l1 l2 hev,
              okOrder_before Ev.loadPipeline Ev.openOutput (by decide) l1 l2 hev⟩
          · exact ⟨okOrder_before Ev.runInference Ev.openOutput (by decide) l1 l2 hev,
              okOrder_before Ev.loadPipeline Ev.openOutput (by decide) l1 l2 hev⟩

theorem failure_leaves_no_valid_json_witness :
    ((RunInput.mk ("a.wav") ("out.json") (some ("t")) (Except.ok ())
        (Except.ok [Triple.mk (Turn.mk 0 1) ("0") ("A")])
        (WriteBehavior.failsAfter 5)).fromPretrained = Except.ok () ∧
      wfTriples [Triple.mk (Turn.mk 0 1) ("0") ("A")] = true) ∧
      ∃ c, (run (RunInput.mk ("a.wav") ("out.json") (some ("t")) (Except.ok ())
          (Except.ok [Triple.mk (Turn.mk 0 1) ("0") ("A")])
          (WriteBehavior.failsAfter 5)) (fun _ => none)).written = some c ∧
        (run (RunInput.mk ("a.wav") ("out.json") (some ("t")) (Except.ok ())
          (Except.ok [Triple.mk (Turn.mk 0 1) ("0") ("A")])
          (WriteBehavior.failsAfter 5)) (fun _ => none)).fs ("out.json") = some c ∧
        jsonOk c = false :=
  ⟨⟨rfl, by decide⟩,
    (failure_leaves_no_valid_json
      (RunInput.mk ("a.wav") ("out.json") (some ("t")) (Except.ok ())
        (Except.ok [Triple.mk (Turn.mk 0 1) ("0") ("A")])
        (WriteBehavior.failsAfter 5)) (fun _ => none)).2.2.2.1 5
      [Triple.mk (Turn.mk 0 1) ("0") ("A")] rfl rfl rfl (by decide)⟩

/-- C4: if the input audio path is missing or invalid, the external
pipeline raises (modelled as the inference outcome being an error); the
process exits with a non-zero status, and the output file is neither
created nor modified — the error occurs before the output file is
opened. -/
theorem missing_audio_no_output (inp : RunInput) (fs0 : String → Option String)
    (e : String) (hinf : inp.inference = Except.error e) :
    (run inp fs0).exitCode ≠ 0 ∧ (∀ p, (run inp fs0).fs p = fs0 p) ∧
      Ev.openOutput ∉ (run inp fs0).events := by
  rcases hfp : inp.fromPretrained with e2 | u
  · refine ⟨?_, fun p => ?_, ?_⟩
    · simp [run, hfp]
    · simp [run, hfp]
    · rcases hb : tokenFalsy inp.envToken with _ | _ <;> simp [run, hfp, hb]
  · cases u
    refine ⟨?_, fun p => ?_, ?_⟩
    · simp [run, hfp, hinf]
    · simp [run, hfp, hinf]
    · rcases hb : tokenFalsy inp.envToken with _ | _ <;> simp [run, hfp, hinf, hb]

theorem missing_audio_no_output_witness :
    ((RunInput.mk ("missing.wav") ("out.json") (some ("t")) (Except.ok ())
        (Except.error ("FileNotFoundError")) WriteBehavior.succeeds).inference =
      Except.error ("FileNotFoundError")) ∧
      ((run (RunInput.mk ("missing.wav") ("out.json") (some ("t")) (Except.ok ())
          (Except.error ("FileNotFoundError")) WriteBehavior.succeeds)
          (fun _ => none)).exitCode ≠ 0 ∧
        (∀ p, (run (RunInput.mk ("missing.wav") ("out.json") (some ("t")) (Except.ok ())
          (Except.error ("FileNotFoundError")) WriteBehavior.succeeds)
          (fun _ => none)).fs p = none) ∧
        Ev.openOutput ∉ (run (RunInput.mk ("missing.wav") ("out.json") (some ("t"))
          (Except.ok ()) (Except.error ("FileNotFoundError")) WriteBehavior.succeeds)
          (fun _ => none)).events) :=
  ⟨rfl, missing_audio_no_output
    (RunInput.mk ("missing.wav") ("out.json") (some ("t")) (Except.ok ())
      (Except.error ("FileNotFoundError")) WriteBehavior.succeeds)
    (fun _ => none) ("FileNotFoundError") rfl⟩

/-- C8: if the pipeline yields zero triples, the run still succeeds,
writes the output file containing exactly the empty JSON array `[]`,
and prints a completion message reporting a count of 0 segments. -/
theorem empty_result_empty_array (inp : RunInput) (fs0 : String → Option String)
    (hfp : inp.fromPretrained = Except.ok ())
    (hinf : inp.inference = Except.ok ([] : List Triple))
    (hwb : inp.writeBeh = WriteBehavior.succeeds) :
    (run inp fs0).exitCode = 0 ∧ (run inp fs0).fs inp.output = some ("[]") ∧
      ("Diarization complete. Found 0 speaker segments.") ∈ (run inp fs0).stdout := by
  refine ⟨?_, ?_, ?_⟩
  · simp [run, hfp, hinf, hwb]
  · simp only [run, hfp, hinf, hwb]
    simp [setFile]
    rfl
  · simp only [run, hfp, hinf, hwb]
    have hdone : ("Diarization complete. Found ") ++
        toString (toSegments ([] : List Triple)).length ++ (" speaker segments.") =
        ("Diarization complete. Found 0 speaker segments.") := rfl
    simp [hdone]

theorem empty_result_empty_array_witness :
    ((RunInput.mk ("a.wav") ("out.json") (some ("t")) (Except.ok ())
        (Except.ok ([] : List Triple)) WriteBehavior.succeeds).inference =
      Except.ok ([] : List Triple)) ∧
      ((run (RunInput.mk ("a.wav") ("out.json") (some ("t")) (Except.ok ())
          (Except.ok ([] : List Triple)) WriteBehavior.succeeds)
          (fun _ => none)).exitCode = 0 ∧
        (run (RunInput.mk ("a.wav") ("out.json") (some ("t")) (Except.ok ())
          (Except.ok ([] : List Triple)) WriteBehavior.succeeds)
          (fun _ => none)).fs ("out.json") = some ("[]") ∧
        ("Diarization complete. Found 0 speaker segments.") ∈
          (run (RunInput.mk ("a.wav") ("out.json") (some ("t")) (Except.ok ())
            (Except.ok ([] : List Triple)) WriteBehavior.succeeds)
            (fun _ => none)).stdout) :=
  ⟨rfl, empty_result_empty_array
    (RunInput.mk ("a.wav") ("out.json") (some ("t")) (Except.ok ())
      (Except.ok ([] : List Triple)) WriteBehavior.succeeds)
    (fun _ => none) rfl rfl rfl⟩

/-- C10: the transformation from pipeline result to output-file content
is deterministic — two runs whose pipelines yield the same sequence of
triples write identical bytes, regardless of the credential value, the
input path, the output path, or the prior file system. -/
theorem output_bytes_deterministic (inp1 inp2 : RunInput)
    (fs1 fs2 : String → Option String) (ts : List Triple)
    (h1 : inp1.fromPretrained = Except.ok ()) (h2 : inp1.inference = Except.ok ts)
    (h3 : inp1.writeBeh = WriteBehavior.succeeds)
    (h4 : inp2.fromPretrained = Except.ok ()) (h5 : inp2.inference = Except.ok ts)
    (h6 : inp2.writeBeh = WriteBehavior.succeeds) :
    (run inp1 fs1).written = (run inp2 fs2).written ∧
      (run inp1 fs1).written = some (dumpSegments (toSegments ts)) := by
  constructor <;> simp [run, h1, h2, h3, h4, h5, h6]

theorem output_bytes_deterministic_witness :
    ((RunInput.mk ("a.wav") ("o1.json") (some ("token1")) (Except.ok ())
        (Except.ok [Triple.mk (Turn.mk 0 1) ("0") ("A")])
        WriteBehavior.succeeds).writeBeh = WriteBehavior.succeeds) ∧
      ((run (RunInput.mk ("a.wav") ("o1.json") (some ("token1")) (Except.ok ())
          (Except.ok [Triple.mk (Turn.mk 0 1) ("0") ("A")]) WriteBehavior.succeeds)
          (fun _ => none)).written =
        (run (RunInput.mk ("b.wav") ("o2.json") none (Except.ok ())
          (Except.ok [Triple.mk (Turn.mk 0 1) ("0") ("A")]) WriteBehavior.succeeds)
          (fun _ => some ("x"))).written ∧
      (run (RunInput.mk ("a.wav") ("o1.json") (some ("token1")) (Except.ok ())
          (Except.ok [Triple.mk (Turn.mk 0 1) ("0") ("A")]) WriteBehavior.succeeds)
          (fun _ => none)).written =
        some (dumpSegments (toSegments [Triple.mk (Turn.mk 0 1) ("0") ("A")]))) :=
  ⟨rfl, output_bytes_deterministic
    (RunInput.mk ("a.wav") ("o1.json") (some ("token1")) (Except.ok ())
      (Except.ok [Triple.mk (Turn.mk 0 1) ("0") ("A")]) WriteBehavior.succeeds)
    (RunInput.mk ("b.wav") ("o2.json") none (Except.ok ())
      (Except.ok [Triple.mk (Turn.mk 0 1) ("0") ("A")]) WriteBehavior.succeeds)
    (fun _ => none) (fun _ => some ("x")) [Triple.mk (Turn.mk 0 1) ("0") ("A")]
    rfl rfl rfl rfl rfl rfl⟩

theorem warn0_ne_start (a : String) :
    ("WARNING: HUGGINGFACE_TOKEN not set in environment. Diarization may fail.") ≠
      ("Starting diarization for ") ++ a := by
  intro heq
  have h2 := congrArg (fun s : String => s.data.head?) heq
  have h3 : (some ('W') : Option Char) = some ('S') := h2
  exact absurd (Option.some.inj h3) (by decide)

theorem warn0_ne_done (x y : String) :
    ("WARNING: HUGGINGFACE_TOKEN not set in environment. Diarization may fail.") ≠
      (("Diarization complete. Found ") ++ x) ++ y := by
  intro heq
  have h2 := congrArg (fun s : String => s.data.head?) heq
  have h3 : (some ('W') : Option Char) = some ('D') := h2
  exact absurd (Option.some.inj h3) (by decide)

theorem warn0_ne_saved (a : String) :
    ("WARNING: HUGGINGFACE_TOKEN not set in environment. Diarization may fail.") ≠
      ("Results saved to ") ++ a := by
  intro heq
  have h2 := congrArg (fun s : String => s.data.head?) heq
  have h3 : (some ('W') : Option Char) = some ('R') := h2
  exact absurd (Option.some.inj h3) (by decide)

/-- C5: if the `HUGGINGFACE_TOKEN` environment variable is absent, the
runner prints the warning and still proceeds to construct and invoke the
pipeline (it does not short-circuit or raise on its own); any downstream
authentication failure propagates uncaught as a non-zero exit. -/
theorem missing_token_still_proceeds (inp : RunInput) (fs0 : String → Option String)
    (htok : inp.envToken = none) :
    (∀ w ∈ warnLines, w ∈ (run inp fs0).stdout) ∧
      Ev.loadPipeline ∈ (run inp fs0).events ∧
      (run inp fs0).tokenPassed = none ∧
      (inp.fromPretrained = Except.ok () → Ev.runInference ∈ (run inp fs0).events) ∧
      (∀ e, inp.fromPretrained = Except.error e → (run inp fs0).exitCode ≠ 0) := by
  have hb : tokenFalsy inp.envToken = true := by rw [htok]; rfl
  rcases hfp : inp.fromPretrained with e2 | u
  · refine ⟨?_, ?_, ?_, ?_, ?_⟩
    · intro w hw
      simp [run, hfp, hb]
      tauto
    · simp [run, hfp, hb]
    · simp [run, hfp, htok]
    · intro hcon
      exact absurd hcon (by simp)
    · intro e he
      simp [run, hfp]
  · cases u
    rcases hinf : inp.inference with e3 | ts
    · refine ⟨?_, ?_, ?_, ?_, ?_⟩
      · intro w hw
        simp [run, hfp, hinf, hb]
        tauto
      · simp [run, hfp, hinf, hb]
      · simp [run, hfp, hinf, htok]
      · intro _
        simp [run, hfp, hinf, hb]
      · intro e he
        exact absurd he (by simp)
    · rcases hwb : inp.writeBeh with _ | _ | n
      all_goals refine ⟨?_, ?_, ?_, ?_, ?_⟩
      all_goals first
        | (intro w hw
           simp [run, hfp, hinf, hwb, hb]
           tauto)
        | (intro e he
           exact absurd he (by simp))
        | (intro _
           simp [run, hfp, hinf, hwb, hb])
        | simp [run, hfp, hinf, hwb, htok, hb]

theorem missing_token_still_proceeds_witness :
    ((RunInput.mk ("a.wav") ("out.json") none (Except.ok ())
        (Except.ok ([] : List Triple)) WriteBehavior.succeeds).envToken = none) ∧
      ((∀ w ∈ warnLines, w ∈ (run (RunInput.mk ("a.wav") ("out.json") none
          (Except.ok ()) (Except.ok ([] : List Triple)) WriteBehavior.succeeds)
          (fun _ => none)).stdout) ∧
        Ev.loadPipeline ∈ (run (RunInput.mk ("a.wav") ("out.json") none (Except.ok ())
          (Except.ok ([] : List Triple)) WriteBehavior.succeeds)
          (fun _ => none)).events ∧
        (run (RunInput.mk ("a.wav") ("out.json") none (Except.ok ())
          (Except.ok ([] : List Triple)) WriteBehavior.succeeds)
          (fun _ => none)).tokenPassed = none ∧
        ((RunInput.mk ("a.wav") ("out.json") none (Except.ok ())
          (Except.ok ([] : List Triple)) WriteBehavior.succeeds).fromPretrained =
            Except.ok () →
          Ev.runInference ∈ (run (RunInput.mk ("a.wav") ("out.json") none (Except.ok ())
            (Except.ok ([] : List Triple)) WriteBehavior.succeeds)
            (fun _ => none)).events) ∧
        (∀ e, (RunInput.mk ("a.wav") ("out.json") none (Except.ok ())
          (Except.ok ([] : List Triple)) WriteBehavior.succeeds).fromPretrained =
            Except.error e →
          (run (RunInput.mk ("a.wav") ("out.json") none (Except.ok ())
            (Except.ok ([] : List Triple)) WriteBehavior.succeeds)
            (fun _ => none)).exitCode ≠ 0)) :=
  ⟨rfl, missing_token_still_proceeds
    (RunInput.mk ("a.wav") ("out.json") none (Except.ok ())
      (Except.ok ([] : List Triple)) WriteBehavior.succeeds)
    (fun _ => none) rfl⟩

theorem run_tokenPassed (inp : RunInput) (fs0 : String → Option String) :
    (run inp fs0).tokenPassed = inp.envToken := by
  rcases hfp : inp.fromPretrained with e | u
  · simp [run, hfp]
  · cases u
    rcases hinf : inp.inference with e | ts
    · simp [run, hfp, hinf]
    · rcases hwb : inp.writeBeh with _ | _ | n <;> simp [run, hfp, hinf, hwb]

theorem warn_mem_stdout (inp : RunInput) (fs0 : String → Option String)
    (hb : tokenFalsy inp.envToken = true) :
    ("WARNING: HUGGINGFACE_TOKEN not set in environment. Diarization may fail.") ∈
      (run inp fs0).stdout := by
  rcases hfp : inp.fromPretrained with e | u
  · simp [run, hfp, hb, warnLines]
  · cases u
    rcases hinf : inp.inference with e | ts
    · simp [run, hfp, hinf, hb, warnLines]
    · rcases hwb : inp.writeBeh with _ | _ | n <;>
        simp [run, hfp, hinf, hwb, hb, warnLines]

theorem warn_not_mem_stdout (inp : RunInput) (fs0 : String → Option String)
    (hb : tokenFalsy inp.envToken = false) :
    ("WARNING: HUGGINGFACE_TOKEN not set in environment. Diarization may fail.") ∉
      (run inp fs0).stdout := by
  rcases hfp : inp.fromPretrained with e | u
  · simp [run, hfp, hb, warn0_ne_start]
  · cases u
    rcases hinf : inp.inference with e | ts
    · simp [run, hfp, hinf, hb, warn0_ne_start]
    · rcases hwb : inp.writeBeh with _ | _ | n <;>
        simp [run, hfp, hinf, hwb, hb, warn0_ne_start, warn0_ne_done, warn0_ne_saved]

/-- C9: the missing-credential warning is printed exactly when
`HUGGINGFACE_TOKEN` is unset or set to the empty string (the check is on
falsiness, not presence); when the variable is set to the empty string,
the warning is printed but the empty string — not an absent value — is
still passed to the pipeline constructor. -/
theorem warning_iff_token_falsy (inp : RunInput) (fs0 : String → Option String) :
    ((("WARNING: HUGGINGFACE_TOKEN not set in environment. Diarization may fail.") ∈
        (run inp fs0).stdout) ↔
      (inp.envToken = none ∨ inp.envToken = some (""))) ∧
      (inp.envToken = some ("") → (run inp fs0).tokenPassed = some ("")) := by
  constructor
  · constructor
    · intro hmem
      rcases htok : inp.envToken with _ | s
      · exact Or.inl rfl
      · right
        rcases hs : tokenFalsy inp.envToken with _ | _
        · exact absurd hmem (warn_not_mem_stdout inp fs0 hs)
        · rw [htok] at hs
          have : s = ("") := by
            have h2 : (s == ("")) = true := hs
            exact eq_of_beq h2
          rw [this]
    · intro h
      refine warn_mem_stdout inp fs0 ?_
      rcases h with h | h <;> rw [h] <;> rfl
  · intro h
    rw [run_tokenPassed, h]

theorem warning_iff_token_falsy_witness :
    ((RunInput.mk ("a.wav") ("out.json") (some ("")) (Except.ok ())
        (Except.ok ([] : List Triple)) WriteBehavior.succeeds).envToken = some ("")) ∧
      (((("WARNING: HUGGINGFACE_TOKEN not set in environment. Diarization may fail.") ∈
          (run (RunInput.mk ("a.wav") ("out.json") (some ("")) (Except.ok ())
            (Except.ok ([] : List Triple)) WriteBehavior.succeeds)
            (fun _ => none)).stdout) ↔
        ((RunInput.mk ("a.wav") ("out.json") (some ("")) (Except.ok ())
          (Except.ok ([] : List Triple)) WriteBehavior.succeeds).envToken = none ∨
         (RunInput.mk ("a.wav") ("out.json") (some ("")) (Except.ok ())
          (Except.ok ([] : List Triple)) WriteBehavior.succeeds).envToken = some (""))) ∧
      ((RunInput.mk ("a.wav") ("out.json") (some ("")) (Except.ok ())
          (Except.ok ([] : List Triple)) WriteBehavior.succeeds).envToken = some ("") →
        (run (RunInput.mk ("a.wav") ("out.json") (some ("")) (Except.ok ())
          (Except.ok ([] : List Triple)) WriteBehavior.succeeds)
          (fun _ => none)).tokenPassed = some (""))) :=
  ⟨rfl, warning_iff_token_falsy
    (RunInput.mk ("a.wav") ("out.json") (some ("")) (Except.ok ())
      (Except.ok ([] : List Triple)) WriteBehavior.succeeds) (fun _ => none)⟩
